import Mathlib

/-!
# Verification of the token-canister ledger and tecdsa polynomial module

Shallow embedding of the core of the `token-canister` repository:

* `src/token_canister/src/ic_token.rs` — the `TOKENs` fixed-point amount type
  (a `u64` of 10^-18 subunits with checked arithmetic);
* `src/token_canister/src/lib.rs` — `Balances`, `Operation`, `Ledger`,
  `add_payment_with_timestamp`, `purge_old_transactions`,
  `select_accounts_to_trim`;
* `src/token_canister/src/ic_block.rs` — `Block`, `EncodedBlock`, `Blockchain`,
  `add_block_with_encoded`, `get_blocks`;
* `src/crypto/internal/crypto_lib/threshold_sig/tecdsa/src/poly.rs` —
  `Polynomial` over an elliptic-curve scalar field, `evaluate_at`,
  `interpolate`.

Modelling conventions:

* `u64` is embedded as `Fin (2 ^ 64)`; checked `u64` arithmetic
  (`checked_add` / `checked_sub`) returns `Option`, and a Rust `panic!` /
  `expect` / failed `assert!` is modelled as propagating `Option.none`.
* `HashMap<AccountIdentifier, TOKENs>` is embedded as an association list;
  its (unspecified) iteration order is the list order.  `BTreeMap` and
  `IntMap` are likewise association lists / lists of keys.
* SHA-256 hashes are modelled by an injective encoding into `Nat`
  (hashing is treated as collision-free).  `EncodedBlock` is modelled by
  its decoded content, per the encode/decode round-trip law of the spec.
* The scalar field of the tecdsa module (an external dependency) is
  modelled as an arbitrary decidable field `F`; `EccScalar::invert` maps
  zero to zero (`Inv` on a Mathlib field), matching the
  `invert()? / is_zero` pattern used by `interpolate`.
-/

/-! ## TOKENs (ic_token.rs) -/

/-- Number of subunit values representable in a `u64`. -/
def u64Card : Nat := 2 ^ 64

/-- `TOKENs`: a token amount backed by a `u64` number of 10^-18 subunits
(field `e8s` in the source). -/
abbrev TOKENs := Fin u64Card

/-- Largest representable `e8s` value, `u64::MAX`. -/
def maxE8s : Nat := u64Card - 1

/-- `TOKENs::MAX`, backed by `u64::MAX`. -/
def TOKENs.MAX : TOKENs := ⟨maxE8s, by norm_num [maxE8s, u64Card]⟩

/-- `TOKENs::ZERO`. -/
def TOKENs.ZERO : TOKENs := ⟨0, by norm_num [u64Card]⟩

/-- `u64::checked_add`, as used by `impl Add for TOKENs`: fails (returns
`None`) on overflow instead of wrapping. -/
def TOKENs.checkedAdd (a b : TOKENs) : Option TOKENs :=
  if h : a.val + b.val < u64Card then some ⟨a.val + b.val, h⟩ else none

/-- `u64::checked_sub`, as used by `impl Sub for TOKENs`: fails (returns
`None`) on underflow. -/
def TOKENs.checkedSub (a b : TOKENs) : Option TOKENs :=
  if _h : b.val ≤ a.val then
    some ⟨a.val - b.val, lt_of_le_of_lt (Nat.sub_le _ _) a.isLt⟩
  else none

/-! ## Operations and balances (lib.rs) -/

/-- `AccountIdentifier` is an opaque totally-ordered hashable key; modelled
as a natural number. -/
abbrev AccountIdentifier := Nat

/-- `Operation`: an operation which modifies account balances
(`types.rs` / `lib.rs`). -/
inductive Operation where
  | Burn (from_ : AccountIdentifier) (amount : TOKENs)
  | Mint (to_ : AccountIdentifier) (amount : TOKENs)
  | Transfer (from_ : AccountIdentifier) (to_ : AccountIdentifier)
      (amount : TOKENs) (fee : TOKENs)
  deriving DecidableEq

/-- The balance store: `HashMap<AccountIdentifier, TOKENs>` modelled as an
association list (iteration order of the hash map is the list order). -/
abbrev Store := List (AccountIdentifier × TOKENs)

/-- `BalancesStore::update` for `HashMap`: apply `f` to the present value
(or `None`), store the result unless it is `TOKENs::ZERO`, in which case
the entry is removed / not inserted.  `f` returning `none` models a panic
inside the closure. -/
def storeUpdate (k : AccountIdentifier) (f : Option TOKENs → Option TOKENs) :
    Store → Option Store
  | [] => (f none).map fun v => if v.val = 0 then [] else [(k, v)]
  | (k', v') :: rest =>
    if k = k' then
      (f (some v')).map fun v => if v.val = 0 then rest else (k, v) :: rest
    else
      (storeUpdate k f rest).map fun r => (k', v') :: r

/-- `Balances`: account map plus the un-minted pool
(`struct Balances { store, icpt_pool }`). -/
structure Balances where
  store : Store
  icpt_pool : TOKENs
  deriving DecidableEq

/-- `Balances::new()`: empty store, pool at `TOKENs::MAX`. -/
def Balances.init : Balances := ⟨[], TOKENs.MAX⟩

/-- The closure `Balances::debit` passes to `BalancesStore::update`:
panics (`none`) if the account is absent (withdraw from empty account) or
the balance is smaller than `amount`; otherwise subtracts. -/
def debitF (amount : TOKENs) : Option TOKENs → Option TOKENs
  | none => none
  | some x =>
    if x.val < amount.val then none
    else some ⟨x.val - amount.val, lt_of_le_of_lt (Nat.sub_le _ _) x.isLt⟩

/-- The closure `Balances::credit` passes to `BalancesStore::update`:
starts from the previous balance or `TOKENs::ZERO`; `+=` panics (`none`)
on `u64` overflow. -/
def creditF (amount : TOKENs) : Option TOKENs → Option TOKENs :=
  fun prev => TOKENs.checkedAdd (prev.getD TOKENs.ZERO) amount

/-- `Balances::debit`: removes the entry when the balance reaches zero. -/
def Balances.debit (b : Balances) (from_ : AccountIdentifier)
    (amount : TOKENs) : Option Balances :=
  (storeUpdate from_ (debitF amount) b.store).map fun s => { b with store := s }

/-- `Balances::credit`: creates the entry if absent. -/
def Balances.credit (b : Balances) (to_ : AccountIdentifier)
    (amount : TOKENs) : Option Balances :=
  (storeUpdate to_ (creditF amount) b.store).map fun s => { b with store := s }

/-- `Balances::add_payment`.  `Transfer` debits `from` by `amount + fee`,
credits `to` by `amount`, and adds `fee` to the pool; `Burn` debits and
returns the amount to the pool; `Mint` credits and subtracts the amount
from the pool.  All in-place `+=`/`-=` panics are modelled as `none`. -/
def Balances.add_payment (b : Balances) (payment : Operation) :
    Option Balances :=
  match payment with
  | .Transfer from_ to_ amount fee =>
    (TOKENs.checkedAdd amount fee).bind fun debit_amount =>
      (b.debit from_ debit_amount).bind fun b₁ =>
        (b₁.credit to_ amount).bind fun b₂ =>
          (TOKENs.checkedAdd b₂.icpt_pool fee).map fun pool =>
            { b₂ with icpt_pool := pool }
  | .Burn from_ amount =>
    (b.debit from_ amount).bind fun b₁ =>
      (TOKENs.checkedAdd b₁.icpt_pool amount).map fun pool =>
        { b₁ with icpt_pool := pool }
  | .Mint to_ amount =>
    (b.credit to_ amount).bind fun b₁ =>
      (TOKENs.checkedSub b₁.icpt_pool amount).map fun pool =>
        { b₁ with icpt_pool := pool }

/-- `Balances::total_supply()`: `TOKENs::MAX - icpt_pool`; the `none` case
models the fatal error branch (`unwrap_or_else(panic!)`). -/
def Balances.total_supply (b : Balances) : Option TOKENs :=
  TOKENs.checkedSub TOKENs.MAX b.icpt_pool

/-- Applying a sequence of operations through `Balances::add_payment`. -/
def applyOps (ops : List Operation) (b : Balances) : Option Balances :=
  ops.foldlM Balances.add_payment b

/-- Sum of all stored account balances, in subunits. -/
def sumVals (s : Store) : Nat := (s.map fun p => p.2.val).sum

/-- Well-formedness of the balance store: account keys are distinct (a map)
and no zero balance is ever stored. -/
def StoreWf (s : Store) : Prop :=
  (s.map Prod.fst).Nodup ∧ ∀ p ∈ s, p.2.val ≠ 0

/-- The conservation invariant of `Balances`: well-formed store and
`sum of balances + pool = u64::MAX`. -/
def BalInv (b : Balances) : Prop :=
  StoreWf b.store ∧ sumVals b.store + b.icpt_pool.val = maxE8s

/-- Token literal helper: a `TOKENs` value from a small natural number. -/
def tok (n : Nat) : TOKENs := ⟨n % u64Card, Nat.mod_lt _ (by norm_num [u64Card])⟩

lemma checkedAdd_some {a b v : TOKENs} (h : TOKENs.checkedAdd a b = some v) :
    v.val = a.val + b.val := by
  unfold TOKENs.checkedAdd at h
  split at h
  · cases h; rfl
  · cases h

lemma checkedSub_some {a b v : TOKENs} (h : TOKENs.checkedSub a b = some v) :
    b.val ≤ a.val ∧ v.val = a.val - b.val := by
  unfold TOKENs.checkedSub at h
  split at h
  · cases h; exact ⟨by assumption, rfl⟩
  · cases h

lemma storeUpdate_cons_self (k : AccountIdentifier) (v' : TOKENs)
    (f : Option TOKENs → Option TOKENs) (rest : Store) :
    storeUpdate k f ((k, v') :: rest) =
      (f (some v')).map fun v => if v.val = 0 then rest else (k, v) :: rest := by
  simp [storeUpdate]

lemma storeUpdate_cons_ne {k k' : AccountIdentifier} (h : k ≠ k') (v' : TOKENs)
    (f : Option TOKENs → Option TOKENs) (rest : Store) :
    storeUpdate k f ((k', v') :: rest) =
      (storeUpdate k f rest).map fun r => (k', v') :: r := by
  simp [storeUpdate, h]

lemma storeUpdate_credit_spec (k : AccountIdentifier) (a : TOKENs) :
    ∀ s s' : Store, storeUpdate k (creditF a) s = some s' → StoreWf s →
      sumVals s' = sumVals s + a.val ∧ StoreWf s' ∧
        ∀ x ∈ s'.map Prod.fst, x ∈ s.map Prod.fst ∨ x = k := by
  intro s
  induction s with
  | nil =>
    intro s' h _
    simp only [storeUpdate] at h
    obtain ⟨v, hv, rfl⟩ := Option.map_eq_some'.1 h
    have hval := checkedAdd_some hv
    simp only [Option.getD, TOKENs.ZERO, Nat.zero_add] at hval
    refine ⟨?_, ?_, ?_⟩
    · split <;> simp_all [sumVals]
    · split <;> simp_all [StoreWf]
    · split <;> simp_all
  | cons p rest ih =>
    obtain ⟨k', v'⟩ := p
    intro s' h hwf
    obtain ⟨hnd, hnz⟩ := hwf
    simp only [List.map_cons, List.nodup_cons] at hnd
    by_cases hk : k = k'
    · subst hk
      rw [storeUpdate_cons_self] at h
      obtain ⟨v, hv, rfl⟩ := Option.map_eq_some'.1 h
      have hval := checkedAdd_some hv
      simp only [Option.getD] at hval
      have hnz' : v'.val ≠ 0 := hnz (k, v') (by simp)
      refine ⟨?_, ?_, ?_⟩
      · split <;> · simp only [sumVals, List.map_cons, List.sum_cons]; omega
      · split
        · exact ⟨hnd.2, fun p hp => hnz p (by simp [hp])⟩
        · rename_i hz
          refine ⟨by simpa using hnd, fun p hp => ?_⟩
          rcases List.mem_cons.mp hp with h1 | h2
          · subst h1; exact hz
          · exact hnz p (by simp [h2])
      · split
        · intro x hx
          exact Or.inl (by simp only [List.map_cons, List.mem_cons]; exact Or.inr hx)
        · intro x hx
          simp only [List.map_cons, List.mem_cons] at hx
          rcases hx with h1 | h2
          · exact Or.inr h1
          · exact Or.inl (by simp [h2])
    · rw [storeUpdate_cons_ne hk] at h
      obtain ⟨r, hr, rfl⟩ := Option.map_eq_some'.1 h
      obtain ⟨hsum, hwf', hkeys⟩ := ih r hr ⟨hnd.2, fun p hp => hnz p (by simp [hp])⟩
      refine ⟨?_, ⟨?_, ?_⟩, ?_⟩
      · simp only [sumVals, List.map_cons, List.sum_cons] at hsum ⊢
        omega
      · simp only [List.map_cons, List.nodup_cons]
        refine ⟨fun hmem => ?_, hwf'.1⟩
        rcases hkeys k' hmem with h1 | h2
        · exact hnd.1 h1
        · exact hk h2.symm
      · intro p hp
        rcases List.mem_cons.mp hp with h1 | h2
        · subst h1; exact hnz (k', v') (by simp)
        · exact hwf'.2 p h2
      · intro x hx
        rcases List.mem_cons.mp hx with h1 | h2
        · simp [h1]
        · rcases hkeys x h2 with h3 | h4
          · exact Or.inl (by simp [h3])
          · exact Or.inr h4

lemma storeUpdate_debit_spec (k : AccountIdentifier) (a : TOKENs) :
    ∀ s s' : Store, storeUpdate k (debitF a) s = some s' → StoreWf s →
      sumVals s' + a.val = sumVals s ∧ StoreWf s' ∧
        ∀ x ∈ s'.map Prod.fst, x ∈ s.map Prod.fst := by
  intro s
  induction s with
  | nil =>
    intro s' h _
    simp [storeUpdate, debitF] at h
  | cons p rest ih =>
    obtain ⟨k', v'⟩ := p
    intro s' h hwf
    obtain ⟨hnd, hnz⟩ := hwf
    simp only [List.map_cons, List.nodup_cons] at hnd
    by_cases hk : k = k'
    · subst hk
      rw [storeUpdate_cons_self] at h
      obtain ⟨v, hv, rfl⟩ := Option.map_eq_some'.1 h
      simp only [debitF] at hv
      split at hv
      · cases hv
      · rename_i hge
        cases hv
        refine ⟨?_, ?_, ?_⟩
        · split
          · rename_i hz
            simp only [sumVals, List.map_cons, List.sum_cons]
            simp only [Fin.val_mk] at hz ⊢
            omega
          · simp only [sumVals, List.map_cons, List.sum_cons, Fin.val_mk]
            omega
        · split
          · exact ⟨hnd.2, fun p hp => hnz p (by simp [hp])⟩
          · rename_i hz
            refine ⟨by simpa using hnd, fun p hp => ?_⟩
            rcases List.mem_cons.mp hp with h1 | h2
            · subst h1; exact hz
            · exact hnz p (by simp [h2])
        · split <;> simp_all
    · rw [storeUpdate_cons_ne hk] at h
      obtain ⟨r, hr, rfl⟩ := Option.map_eq_some'.1 h
      obtain ⟨hsum, hwf', hkeys⟩ := ih r hr ⟨hnd.2, fun p hp => hnz p (by simp [hp])⟩
      refine ⟨?_, ⟨?_, ?_⟩, ?_⟩
      · simp only [sumVals, List.map_cons, List.sum_cons] at hsum ⊢
        omega
      · simp only [List.map_cons, List.nodup_cons]
        exact ⟨fun hmem => hnd.1 (hkeys k' hmem), hwf'.1⟩
      · intro p hp
        rcases List.mem_cons.mp hp with h1 | h2
        · subst h1; exact hnz (k', v') (by simp)
        · exact hwf'.2 p h2
      · intro x hx
        rcases List.mem_cons.mp hx with h1 | h2
        · simp [h1]
        · simp [hkeys x h2]

lemma debit_spec {b b' : Balances} {k : AccountIdentifier} {a : TOKENs}
    (h : b.debit k a = some b') (hwf : StoreWf b.store) :
    sumVals b'.store + a.val = sumVals b.store ∧ StoreWf b'.store ∧
      b'.icpt_pool = b.icpt_pool ∧
      ∀ x ∈ b'.store.map Prod.fst, x ∈ b.store.map Prod.fst := by
  unfold Balances.debit at h
  obtain ⟨s', hs', rfl⟩ := Option.map_eq_some'.1 h
  obtain ⟨h1, h2, h3⟩ := storeUpdate_debit_spec _ _ _ _ hs' hwf
  exact ⟨h1, h2, rfl, h3⟩

lemma credit_spec {b b' : Balances} {k : AccountIdentifier} {a : TOKENs}
    (h : b.credit k a = some b') (hwf : StoreWf b.store) :
    sumVals b'.store = sumVals b.store + a.val ∧ StoreWf b'.store ∧
      b'.icpt_pool = b.icpt_pool ∧
      ∀ x ∈ b'.store.map Prod.fst, x ∈ b.store.map Prod.fst ∨ x = k := by
  unfold Balances.credit at h
  obtain ⟨s', hs', rfl⟩ := Option.map_eq_some'.1 h
  obtain ⟨h1, h2, h3⟩ := storeUpdate_credit_spec _ _ _ _ hs' hwf
  exact ⟨h1, h2, rfl, h3⟩

/-- `Balances::add_payment` preserves the conservation invariant. -/
lemma addPayment_inv {b b' : Balances} {op : Operation}
    (h : b.add_payment op = some b') (hb : BalInv b) : BalInv b' := by
  obtain ⟨hwf, hsum⟩ := hb
  cases op with
  | Burn from_ amount =>
    simp only [Balances.add_payment, Option.bind_eq_some'] at h
    obtain ⟨b₁, hb₁, hmap⟩ := h
    obtain ⟨pool, hpool, hfin⟩ := Option.map_eq_some'.1 hmap
    obtain ⟨hsum₁, hwf₁, hpool₁, _⟩ := debit_spec hb₁ hwf
    have hp := checkedAdd_some hpool
    cases hfin
    refine ⟨hwf₁, ?_⟩
    rw [hpool₁] at hp
    simp only at hp ⊢
    omega
  | Mint to_ amount =>
    simp only [Balances.add_payment, Option.bind_eq_some'] at h
    obtain ⟨b₁, hb₁, hmap⟩ := h
    obtain ⟨pool, hpool, hfin⟩ := Option.map_eq_some'.1 hmap
    obtain ⟨hsum₁, hwf₁, hpool₁, _⟩ := credit_spec hb₁ hwf
    have hp := checkedSub_some hpool
    cases hfin
    refine ⟨hwf₁, ?_⟩
    rw [hpool₁] at hp
    simp only at hp ⊢
    omega
  | Transfer from_ to_ amount fee =>
    simp only [Balances.add_payment, Option.bind_eq_some'] at h
    obtain ⟨da, hda, b₁, hb₁, b₂, hb₂, hmap⟩ := h
    obtain ⟨pool, hpool, hfin⟩ := Option.map_eq_some'.1 hmap
    have hdav := checkedAdd_some hda
    obtain ⟨hsum₁, hwf₁, hpool₁, _⟩ := debit_spec hb₁ hwf
    obtain ⟨hsum₂, hwf₂, hpool₂, _⟩ := credit_spec hb₂ hwf₁
    have hp := checkedAdd_some hpool
    cases hfin
    refine ⟨hwf₂, ?_⟩
    rw [hpool₂, hpool₁] at hp
    simp only at hp hsum₁ hsum₂ ⊢
    omega

/-- `BalInv` holds along any successful `add_payment` sequence. -/
lemma applyOps_inv : ∀ (ops : List Operation) (b b' : Balances),
    applyOps ops b = some b' → BalInv b → BalInv b' := by
  intro ops
  induction ops with
  | nil =>
    intro b b' h hb
    simp only [applyOps, List.foldlM_nil] at h
    cases h; exact hb
  | cons op rest ih =>
    intro b b' h hb
    simp only [applyOps, List.foldlM_cons, bind, Option.bind_eq_some'] at h
    obtain ⟨b₁, hb₁, hrest⟩ := h
    exact ih b₁ b' hrest (addPayment_inv hb₁ hb)

lemma initBalances_inv : BalInv Balances.init := by
  constructor
  · constructor
    · simp [Balances.init]
    · intro p hp
      simp [Balances.init] at hp
  · simp [sumVals, Balances.init, TOKENs.MAX]

/-- **C1** (balance conservation).  Starting from the initial `Balances`
state (empty store, pool = `TOKENs::MAX`), after any sequence of
`Mint`/`Burn`/`Transfer` operations successfully applied via
`Balances::add_payment`, `total_supply()` succeeds, and
`total_supply() + icpt_pool = TOKENs::MAX` and `total_supply()` equals the
sum of all stored account balances. -/
theorem balances_conservation (ops : List Operation) (b : Balances)
    (h : applyOps ops Balances.init = some b) :
    ∃ s : TOKENs, b.total_supply = some s ∧
      s.val + b.icpt_pool.val = TOKENs.MAX.val ∧ s.val = sumVals b.store := by
  obtain ⟨hwf, hsum⟩ := applyOps_inv ops _ b h initBalances_inv
  have hpool : b.icpt_pool.val ≤ maxE8s := by omega
  refine ⟨⟨maxE8s - b.icpt_pool.val, lt_of_le_of_lt (Nat.sub_le _ _)
    (by norm_num [maxE8s, u64Card])⟩, ?_, ?_, ?_⟩
  · simp only [Balances.total_supply, TOKENs.checkedSub, TOKENs.MAX]
    rw [dif_pos hpool]
  · simp only [TOKENs.MAX]
    omega
  · simp only
    omega

/-- Witness for C1 at a concrete operation sequence
(mint 10 to account 1, transfer 7 with fee 1 to account 2, burn 2). -/
theorem balances_conservation_witness :
    ∃ s : TOKENs,
      Balances.total_supply ⟨[(2, tok 7)], tok (maxE8s - 7)⟩ = some s ∧
      s.val + (tok (maxE8s - 7)).val = TOKENs.MAX.val ∧
      s.val = sumVals [(2, tok 7)] :=
  balances_conservation
    [Operation.Mint 1 (tok 10), Operation.Transfer 1 2 (tok 7) (tok 1),
     Operation.Burn 1 (tok 2)]
    ⟨[(2, tok 7)], tok (maxE8s - 7)⟩ (by decide)

/-- **C9** (`total_supply` is total).  For every `Balances` state — in
particular every reachable one — the pool, being `u64`-backed, satisfies
`icpt_pool ≤ TOKENs::MAX`, hence `TOKENs::MAX - icpt_pool` succeeds and
`Balances::total_supply` never takes its fatal error branch. -/
theorem total_supply_total (b : Balances) :
    b.icpt_pool.val ≤ TOKENs.MAX.val ∧ (b.total_supply).isSome := by
  have hb : b.icpt_pool.val ≤ maxE8s := by
    have := b.icpt_pool.isLt
    simp only [u64Card] at this
    simp only [maxE8s, u64Card]
    omega
  refine ⟨hb, ?_⟩
  simp only [Balances.total_supply, TOKENs.checkedSub, TOKENs.MAX]
  rw [dif_pos hb]
  rfl

/-! ## Blocks and the blockchain (ic_block.rs)

`TimeStamp` (nanoseconds since the Unix epoch, `timestamp.rs` — the file is
not under `src/`) is modelled from the spec as a natural number of
nanoseconds with numeric ordering and addition; `Duration` likewise.
SHA-256 hashes (`HashOf<T>`) are modelled as injective `Nat` encodings. -/

/-- `Transaction { operation, memo, created_at_time }` (types.rs). -/
structure Transaction where
  operation : Operation
  memo : Nat
  created_at_time : Nat
  deriving DecidableEq

/-- Injective `Nat` encoding of an `Operation` (used to model hashing). -/
def Operation.encodeNat : Operation → Nat
  | .Burn from_ amount => Nat.pair 0 (Nat.pair from_ amount.val)
  | .Mint to_ amount => Nat.pair 1 (Nat.pair to_ amount.val)
  | .Transfer from_ to_ amount fee =>
    Nat.pair 2 (Nat.pair (Nat.pair from_ to_) (Nat.pair amount.val fee.val))

/-- `Transaction::hash()`: SHA-256 over the packed CBOR serialization of
`(operation, memo, created_at_time)`, modelled as an injective encoding. -/
def Transaction.hashNat (tx : Transaction) : Nat :=
  Nat.pair tx.operation.encodeNat (Nat.pair tx.memo tx.created_at_time)

/-- `Block { parent_hash, transaction, timestamp }`. -/
structure Block where
  parent_hash : Option Nat
  transaction : Transaction
  timestamp : Nat
  deriving DecidableEq

/-- `Block::new_from_transaction`. -/
def Block.new_from_transaction (parent_hash : Option Nat) (tx : Transaction)
    (timestamp : Nat) : Block :=
  ⟨parent_hash, tx, timestamp⟩

/-- `EncodedBlock`: the canonical protobuf byte form of a block, modelled
by its decoded content (encode/decode is a bijective round trip). -/
structure EncodedBlock where
  block : Block
  deriving DecidableEq

/-- `Block::encode` (the canonical encoding; modelled as total, its only
failure mode being the external protobuf writer). -/
def Block.encode (b : Block) : EncodedBlock := ⟨b⟩

/-- `EncodedBlock::hash()`: SHA-256 over the encoded bytes, modelled as an
injective encoding of the content. -/
def EncodedBlock.hashNat (e : EncodedBlock) : Nat :=
  Nat.pair ((e.block.parent_hash.map Nat.succ).getD 0)
    (Nat.pair e.block.transaction.hashNat e.block.timestamp)

/-- Error outcomes of ledger/blockchain operations (the distinct `Err`
message strings of lib.rs / ic_block.rs). -/
inductive LedgerError where
  | expiredTx
  | futureTx
  | duplicateTx
  | parentMismatch
  | timestampTooOld
  deriving DecidableEq

/-- `Blockchain { blocks, last_hash, last_timestamp, num_archived_blocks }`. -/
structure Blockchain where
  blocks : List EncodedBlock
  last_hash : Option Nat
  last_timestamp : Nat
  num_archived_blocks : Nat
  deriving DecidableEq

/-- `Blockchain::default()`. -/
def Blockchain.init : Blockchain := ⟨[], none, 0, 0⟩

/-- `Blockchain::num_unarchived_blocks()`. -/
def Blockchain.num_unarchived_blocks (bc : Blockchain) : Nat :=
  bc.blocks.length

/-- `Blockchain::chain_length() = num_archived_blocks + len(blocks)`. -/
def Blockchain.chain_length (bc : Blockchain) : Nat :=
  bc.num_archived_blocks + bc.num_unarchived_blocks

/-- `Blockchain::add_block_with_encoded`: parent-hash check, then
timestamp-monotonicity check, then append.  The returned height is
`chain_length().checked_sub(1).unwrap()` computed after the push (the
chain is then nonempty, so the `unwrap` cannot fail and is modelled by
`Nat` subtraction). -/
def Blockchain.add_block_with_encoded (bc : Blockchain) (block : Block)
    (encoded_block : EncodedBlock) : Except LedgerError Nat × Blockchain :=
  if block.parent_hash ≠ bc.last_hash then
    (.error .parentMismatch, bc)
  else if block.timestamp < bc.last_timestamp then
    (.error .timestampTooOld, bc)
  else
    let bc' : Blockchain :=
      { blocks := bc.blocks ++ [encoded_block],
        last_hash := some encoded_block.hashNat,
        last_timestamp := block.timestamp,
        num_archived_blocks := bc.num_archived_blocks }
    (.ok (bc'.chain_length - 1), bc')

/-- `Blockchain::add_block`: encode, then `add_block_with_encoded`. -/
def Blockchain.add_block (bc : Blockchain) (block : Block) :
    Except LedgerError Nat × Blockchain :=
  bc.add_block_with_encoded block block.encode

/-- **C3** (`add_block_with_encoded` specification).  A parent-hash
mismatch yields the parent-mismatch error; otherwise a timestamp below
`last_timestamp` yields the timestamp-regression error; otherwise the
block is appended, `last_hash` becomes the hash of the encoded block,
`last_timestamp` becomes the block's timestamp, and the returned height is
`chain_length - 1` after the append, with
`chain_length = num_archived_blocks + len(blocks)`. -/
theorem add_block_with_encoded_spec (bc : Blockchain) (block : Block)
    (encoded : EncodedBlock) :
    (block.parent_hash ≠ bc.last_hash →
      bc.add_block_with_encoded block encoded = (.error .parentMismatch, bc)) ∧
    (block.parent_hash = bc.last_hash → block.timestamp < bc.last_timestamp →
      bc.add_block_with_encoded block encoded = (.error .timestampTooOld, bc)) ∧
    (block.parent_hash = bc.last_hash → ¬block.timestamp < bc.last_timestamp →
      ∃ bc', bc.add_block_with_encoded block encoded =
            (.ok (bc'.chain_length - 1), bc') ∧
        bc'.last_hash = some encoded.hashNat ∧
        bc'.last_timestamp = block.timestamp ∧
        bc'.blocks = bc.blocks ++ [encoded] ∧
        bc'.num_archived_blocks = bc.num_archived_blocks ∧
        bc'.chain_length = bc.num_archived_blocks + bc.blocks.length + 1) := by
  refine ⟨fun hp => ?_, fun hp ht => ?_, fun hp ht => ?_⟩
  · simp [Blockchain.add_block_with_encoded, hp]
  · simp [Blockchain.add_block_with_encoded, hp, ht]
  · refine ⟨Blockchain.mk (bc.blocks ++ [encoded]) (some encoded.hashNat)
      block.timestamp bc.num_archived_blocks, ?_, rfl, rfl, rfl, rfl, ?_⟩
    · simp [Blockchain.add_block_with_encoded, hp, ht]
    · simp only [Blockchain.chain_length, Blockchain.num_unarchived_blocks,
        List.length_append, List.length_cons, List.length_nil]
      omega

/-- Witness for C3: all three cases at concrete inputs. -/
theorem add_block_with_encoded_spec_witness :
    (Blockchain.add_block_with_encoded ⟨[], some 3, 0, 0⟩
        ⟨none, ⟨.Mint 0 (tok 1), 0, 0⟩, 0⟩ ⟨⟨none, ⟨.Mint 0 (tok 1), 0, 0⟩, 0⟩⟩ =
      (.error .parentMismatch, ⟨[], some 3, 0, 0⟩)) ∧
    (Blockchain.add_block_with_encoded ⟨[], none, 9, 0⟩
        ⟨none, ⟨.Mint 0 (tok 1), 0, 5⟩, 5⟩ ⟨⟨none, ⟨.Mint 0 (tok 1), 0, 5⟩, 5⟩⟩ =
      (.error .timestampTooOld, ⟨[], none, 9, 0⟩)) ∧
    ∃ bc', Blockchain.add_block_with_encoded ⟨[], none, 0, 7⟩
          ⟨none, ⟨.Mint 0 (tok 1), 0, 4⟩, 4⟩ ⟨⟨none, ⟨.Mint 0 (tok 1), 0, 4⟩, 4⟩⟩ =
        (.ok (bc'.chain_length - 1), bc') ∧
      bc'.last_hash = some (EncodedBlock.hashNat ⟨⟨none, ⟨.Mint 0 (tok 1), 0, 4⟩, 4⟩⟩) ∧
      bc'.last_timestamp = (4 : Nat) ∧
      bc'.blocks = [⟨⟨none, ⟨.Mint 0 (tok 1), 0, 4⟩, 4⟩⟩] ∧
      bc'.num_archived_blocks = (7 : Nat) ∧
      bc'.chain_length = (7 : Nat) + 0 + 1 := by
  refine ⟨(add_block_with_encoded_spec _ _ _).1 (by decide),
    (add_block_with_encoded_spec _ _ _).2.1 rfl (by decide), ?_⟩
  obtain ⟨bc', h⟩ := (add_block_with_encoded_spec ⟨[], none, 0, 7⟩
    ⟨none, ⟨.Mint 0 (tok 1), 0, 4⟩, 4⟩ ⟨⟨none, ⟨.Mint 0 (tok 1), 0, 4⟩, 4⟩⟩).2.2
    rfl (by decide)
  exact ⟨bc', h.1, h.2.1, h.2.2.1, by simpa using h.2.2.2.1, by simpa using h.2.2.2.2⟩

/-! ## get_blocks (ic_block.rs) -/

/-- Result of the `get_blocks` helper: `Ok(blocks)`, the out-of-range
`Err(..)` (message elided), or a `usize`-slice panic (`fatal`), which the
Rust code can reach because the subtractions `range_from + length - 1` and
`range_from_offset + blocks.len() - 1` wrap in release builds. -/
inductive GetBlocksRes where
  | ok (blocks : List EncodedBlock)
  | err
  | fatal
  deriving DecidableEq

/-- `get_blocks(blocks, range_from_offset, range_from, length)`.

`requested_range_to = range_from as usize + length - 1` and
`range_to = range_from_offset as usize + blocks.len() - 1` are `usize`
computations that wrap modulo `2^64` (release semantics); the final
`blocks[offset..offset + length]` panics (`fatal`) when the slice bounds
exceed `blocks.len()` (always the case when `offset + length` wraps, since
a slice is shorter than `2^64`). -/
def get_blocks (blocks : List EncodedBlock) (range_from_offset : Nat)
    (range_from : Nat) (length : Nat) : GetBlocksRes :=
  let requested_range_to := (range_from + length + (u64Card - 1)) % u64Card
  let range_to := (range_from_offset + blocks.length + (u64Card - 1)) % u64Card
  if range_from < range_from_offset ∨ requested_range_to > range_to then
    .err
  else
    let offset := range_from - range_from_offset
    if offset + length ≤ blocks.length then
      .ok ((blocks.drop offset).take length)
    else
      .fatal

/-- The spec-side containment condition of C8: the requested inclusive
range `[start, start + length - 1]` is fully contained in
`[base, base + n - 1]` — i.e. every requested index is an available index
(vacuously true for an empty request). -/
def rangeContained (start length base n : Nat) : Prop :=
  length = 0 ∨ (base ≤ start ∧ start + length ≤ base + n)

instance (start length base n : Nat) :
    Decidable (rangeContained start length base n) := by
  unfold rangeContained
  infer_instance

/-- **C8, counterexample.**  With one stored block at base height 0 and a
request `start = 0, length = 0`, the requested inclusive range is empty
and therefore fully contained in the available range, yet `get_blocks`
returns the out-of-range error (the `usize` computation
`range_from + length - 1` wraps), contradicting the claimed exact
characterization. -/
theorem get_blocks_zero_length_counterexample :
    rangeContained 0 0 0
        [Block.encode ⟨none, ⟨.Mint 0 TOKENs.ZERO, 0, 0⟩, 0⟩].length ∧
      get_blocks [Block.encode ⟨none, ⟨.Mint 0 TOKENs.ZERO, 0, 0⟩, 0⟩] 0 0 0 =
        .err := by
  constructor
  · exact Or.inl rfl
  · decide

lemma wrap_sub_one {a : Nat} (h1 : 1 ≤ a) (h2 : a ≤ u64Card) :
    (a + (u64Card - 1)) % u64Card = a - 1 := by
  have hc : (0:Nat) < u64Card := by norm_num [u64Card]
  have he : a + (u64Card - 1) = (a - 1) + u64Card := by omega
  rw [he, Nat.add_mod_right, Nat.mod_eq_of_lt (by omega)]

/-- **C8, amended** (strict range extraction).  For a nonempty request
(`length ≥ 1`) against a nonempty block slice, with the range endpoints
representable in `u64`/`usize` (no wrap), `get_blocks` returns the
out-of-range error exactly when the requested inclusive range
`[start, start + length - 1]` is not fully contained in
`[base, base + len(blocks) - 1]`, and otherwise returns the blocks of the
requested range in order.  (For `length = 0` the `usize` arithmetic wraps
and the code rejects some fully-contained empty requests, see the
counterexample.) -/
theorem get_blocks_range_spec (blocks : List EncodedBlock)
    (base start length : Nat) (hl : 1 ≤ length) (hb : 1 ≤ blocks.length)
    (hov1 : start + length ≤ u64Card) (hov2 : base + blocks.length ≤ u64Card) :
    (get_blocks blocks base start length = .err ↔
      ¬rangeContained start length base blocks.length) ∧
    (rangeContained start length base blocks.length →
      get_blocks blocks base start length =
        .ok ((blocks.drop (start - base)).take length)) := by
  have hreq : (start + length + (u64Card - 1)) % u64Card = start + length - 1 :=
    wrap_sub_one (by omega) hov1
  have hav : (base + blocks.length + (u64Card - 1)) % u64Card =
      base + blocks.length - 1 := wrap_sub_one (by omega) hov2
  have hcont : rangeContained start length base blocks.length ↔
      (base ≤ start ∧ start + length ≤ base + blocks.length) := by
    unfold rangeContained
    omega
  constructor
  · simp only [get_blocks, hreq, hav, hcont]
    split
    · rename_i hcond
      simp only [true_iff]
      omega
    · rename_i hcond
      split
      · simp only [reduceCtorEq, false_iff, not_not]
        omega
      · rename_i hslice
        constructor
        · intro h; cases h
        · intro h
          exact absurd (by omega : start - base + length ≤ blocks.length) hslice
  · intro hc
    rw [hcont] at hc
    simp only [get_blocks, hreq, hav]
    rw [if_neg (by omega), if_pos (by omega)]

/-- Witness for C8 (amended) at concrete inputs: two blocks stored at base
height 5, request `[6, 6]`. -/
theorem get_blocks_range_spec_witness :
    ((get_blocks [Block.encode ⟨none, ⟨.Mint 0 TOKENs.ZERO, 0, 0⟩, 0⟩,
        Block.encode ⟨none, ⟨.Mint 1 TOKENs.ZERO, 0, 0⟩, 0⟩] 5 6 1 = .err ↔
      ¬rangeContained 6 1 5 [Block.encode ⟨none, ⟨.Mint 0 TOKENs.ZERO, 0, 0⟩, 0⟩,
        Block.encode ⟨none, ⟨.Mint 1 TOKENs.ZERO, 0, 0⟩, 0⟩].length) ∧
    (rangeContained 6 1 5 [Block.encode ⟨none, ⟨.Mint 0 TOKENs.ZERO, 0, 0⟩, 0⟩,
        Block.encode ⟨none, ⟨.Mint 1 TOKENs.ZERO, 0, 0⟩, 0⟩].length →
      get_blocks [Block.encode ⟨none, ⟨.Mint 0 TOKENs.ZERO, 0, 0⟩, 0⟩,
          Block.encode ⟨none, ⟨.Mint 1 TOKENs.ZERO, 0, 0⟩, 0⟩] 5 6 1 =
        .ok (([Block.encode ⟨none, ⟨.Mint 0 TOKENs.ZERO, 0, 0⟩, 0⟩,
          Block.encode ⟨none, ⟨.Mint 1 TOKENs.ZERO, 0, 0⟩, 0⟩].drop (6 - 5)).take 1))) :=
  get_blocks_range_spec _ 5 6 1 (by decide) (by decide)
    (by norm_num [u64Card]) (by norm_num [u64Card])

/-! ## The Ledger (lib.rs)

`ic_types::ingress::PERMITTED_DRIFT` is an external constant (60 seconds);
`transaction_window` is a `Duration` in nanoseconds. -/

/-- The permitted clock drift for client-supplied timestamps
(`ic_types::ingress::PERMITTED_DRIFT`, 60 s in nanoseconds). -/
def PERMITTED_DRIFT : Nat := 60 * 1000000000

/-- `TransactionInfo { block_timestamp, transaction_hash }`. -/
structure TransactionInfo where
  block_timestamp : Nat
  transaction_hash : Nat
  deriving DecidableEq

/-- The `Ledger` aggregate (lib.rs).  `transactions_by_hash` (a `BTreeMap`)
is an association list from transaction hash to block height;
`transactions_by_height` (a `VecDeque`) is a front-to-back list;
`blocks_notified` (an `IntMap<()>`) is a list of heights. -/
structure Ledger where
  balances : Balances
  blockchain : Blockchain
  maximum_number_of_accounts : Nat
  accounts_overflow_trim_quantity : Nat
  minting_account_id : Option AccountIdentifier
  blocks_notified : List Nat
  transaction_window : Nat
  transactions_by_hash : List (Nat × Nat)
  transactions_by_height : List TransactionInfo
  send_whitelist : List Nat
  deriving DecidableEq

/-- `Ledger::default()`: 50 M account cap, 100 k trim quantity, 24 h
transaction window. -/
def Ledger.init : Ledger :=
  ⟨Balances.init, Blockchain.init, 50000000, 100000, none, [],
    86400 * 1000000000, [], [], []⟩

/-- `BTreeMap::get`-style lookup in the hash→height association list. -/
def alookup (h : Nat) : List (Nat × Nat) → Option Nat
  | [] => none
  | (k, v) :: rest => if k = h then some v else alookup h rest

/-- `BTreeMap::contains_key`. -/
def acontains (h : Nat) (l : List (Nat × Nat)) : Bool :=
  (alookup h l).isSome

/-- `BTreeMap::remove` (the map holds each key at most once). -/
def aremove (h : Nat) (l : List (Nat × Nat)) : List (Nat × Nat) :=
  l.filter fun p => p.1 ≠ h

/-- The loop of `Ledger::purge_old_transactions(now)`: pop entries from the
front of `transactions_by_height` while `block_timestamp +
transaction_window ≤ now`, removing each from `transactions_by_hash`
(`assert!(removed.is_some())` modelled as `none` on failure) and clearing
its notification flag. -/
def purgeGo (now win : Nat) :
    List TransactionInfo → List (Nat × Nat) → List Nat →
      Option (List TransactionInfo × List (Nat × Nat) × List Nat)
  | [], byHash, notified => some ([], byHash, notified)
  | info :: rest, byHash, notified =>
    if now < info.block_timestamp + win then
      some (info :: rest, byHash, notified)
    else
      match alookup info.transaction_hash byHash with
      | none => none
      | some bh =>
        purgeGo now win rest (aremove info.transaction_hash byHash)
          (notified.filter fun h => h ≠ bh)

/-- `Ledger::purge_old_transactions(now)`. -/
def Ledger.purge_old_transactions (l : Ledger) (now : Nat) : Option Ledger :=
  (purgeGo now l.transaction_window l.transactions_by_height
    l.transactions_by_hash l.blocks_notified).map fun r =>
      { l with
        transactions_by_height := r.1
        transactions_by_hash := r.2.1
        blocks_notified := r.2.2 }

/-- Strict lexicographic order on `(TOKENs, AccountIdentifier)` pairs (the
derived `Ord` used by the `BinaryHeap` in `select_accounts_to_trim`). -/
def pairGt (a b : TOKENs × AccountIdentifier) : Prop :=
  b.1.val < a.1.val ∨ (a.1.val = b.1.val ∧ b.2 < a.2)

instance (a b : TOKENs × AccountIdentifier) : Decidable (pairGt a b) := by
  unfold pairGt
  infer_instance

/-- `BinaryHeap::push`: the max-heap is modelled as a descending-sorted
list (its multiset content is what the algorithm observes). -/
def heapPush (e : TOKENs × AccountIdentifier) :
    List (TOKENs × AccountIdentifier) → List (TOKENs × AccountIdentifier)
  | [] => [e]
  | e' :: rest => if pairGt e e' then e :: e' :: rest else e' :: heapPush e rest

/-- `LedgerBalances::select_accounts_to_trim(num_accounts)`: seed a
bounded max-heap with the first `num_accounts` entries, then for each
remaining entry whose balance is strictly below the heap maximum's
balance, push it and pop the maximum; return the heap contents. -/
def selectAccountsToTrim (b : Balances) (num_accounts : Nat) :
    List (TOKENs × AccountIdentifier) :=
  let seeded := (b.store.take num_accounts).foldl
    (fun h p => heapPush (p.2, p.1) h) []
  (b.store.drop num_accounts).foldl
    (fun h p =>
      match h with
      | [] => h
      | greatest :: _ =>
        if p.2.val < greatest.1.val then (heapPush (p.2, p.1) h).tail else h)
    seeded

/-- The trim loop at the end of `add_payment_with_timestamp`: for each
selected `(balance, account)`, apply a `Burn` through the balances and
append a block with default memo and the same `now` timestamp
(`add_block(..).unwrap()` and balance panics modelled as `none`). -/
def trimLoop (now : Nat) :
    Ledger → List (TOKENs × AccountIdentifier) → Option Ledger
  | l, [] => some l
  | l, (balance, account) :: rest =>
    (l.balances.add_payment (.Burn account balance)).bind fun b' =>
      match l.blockchain.add_block (Block.new_from_transaction
          l.blockchain.last_hash ⟨.Burn account balance, 0, now⟩ now) with
      | (.ok _, bc') =>
        trimLoop now { l with balances := b', blockchain := bc' } rest
      | (.error _, _) => none

/-- `Ledger::add_payment_with_timestamp(memo, payment, created_at_time,
now)`: purge expired dedup entries, default `created_at_time` to `now`,
reject expired / future / duplicate transactions, apply the balance
effects, append the block, record the dedup entry, then trim the
lowest-balance accounts whenever the account count reaches
`maximum_number_of_accounts + accounts_overflow_trim_quantity`.  Returns
the new height and the chain hash (`last_hash.unwrap()` after the trim). -/
def Ledger.add_payment_with_timestamp (l : Ledger) (memo : Nat)
    (payment : Operation) (created_at_time : Option Nat) (now : Nat) :
    Option (Except LedgerError (Nat × Nat) × Ledger) :=
  (l.purge_old_transactions now).bind fun lp =>
    let c := created_at_time.getD now
    if c + lp.transaction_window < now then
      some (.error .expiredTx, lp)
    else if now + PERMITTED_DRIFT < c then
      some (.error .futureTx, lp)
    else
      let transaction : Transaction := ⟨payment, memo, c⟩
      let transaction_hash := transaction.hashNat
      if acontains transaction_hash lp.transactions_by_hash then
        some (.error .duplicateTx, lp)
      else
        let block := Block.new_from_transaction lp.blockchain.last_hash
          transaction now
        let block_timestamp := block.timestamp
        (lp.balances.add_payment payment).bind fun b₁ =>
          match lp.blockchain.add_block block with
          | (.error e, bc') =>
            some (.error e, { lp with balances := b₁, blockchain := bc' })
          | (.ok height, bc') =>
            let l₂ : Ledger :=
              { lp with
                balances := b₁
                blockchain := bc'
                transactions_by_hash :=
                  (transaction_hash, height) :: lp.transactions_by_hash
                transactions_by_height := lp.transactions_by_height ++
                  [⟨block_timestamp, transaction_hash⟩] }
            let to_trim :=
              if l₂.maximum_number_of_accounts +
                  l₂.accounts_overflow_trim_quantity ≤ l₂.balances.store.length
              then selectAccountsToTrim l₂.balances
                l₂.accounts_overflow_trim_quantity
              else []
            (trimLoop now l₂ to_trim).bind fun l₃ =>
              match l₃.blockchain.last_hash with
              | none => none
              | some hash => some (.ok (height, hash), l₃)

/-- Sum view of `Except`, to derive decidable equality. -/
def exceptToSum {ε α : Type} : Except ε α → Sum ε α
  | .error e => .inl e
  | .ok a => .inr a

instance {ε α : Type} [DecidableEq ε] [DecidableEq α] :
    DecidableEq (Except ε α) := fun a b =>
  decidable_of_iff (exceptToSum a = exceptToSum b)
    (by cases a <;> cases b <;> simp [exceptToSum])

/-! ## C2: atomicity of validation errors -/

lemma add_block_error_kind {bc bc' : Blockchain} {blk : Block}
    {e : LedgerError} (h : bc.add_block blk = (.error e, bc')) :
    (e = .parentMismatch ∨ e = .timestampTooOld) ∧ bc' = bc := by
  unfold Blockchain.add_block Blockchain.add_block_with_encoded at h
  split at h
  · obtain ⟨h1, h2⟩ := Prod.mk.injEq .. ▸ h
    cases h1
    exact ⟨Or.inl rfl, (Prod.mk.injEq .. ▸ h).2.symm⟩
  · split at h
    · exact ⟨Or.inr (by cases (Prod.mk.injEq .. ▸ h).1; rfl),
        (Prod.mk.injEq .. ▸ h).2.symm⟩
    · cases (Prod.mk.injEq .. ▸ h).1

/-- **C2, amended** (atomicity of the pre-mutation validation errors).
Whenever `add_payment_with_timestamp` returns the expired-transaction,
future-timestamp or duplicate-transaction error, the returned ledger state
is exactly the state immediately after the purge step.  (A chain-append
timestamp-regression error is also returned to the caller, but it occurs
after the balances have been mutated — see the counterexample.) -/
theorem validation_error_no_mutation (l l' : Ledger) (memo : Nat)
    (payment : Operation) (c : Option Nat) (now : Nat) (e : LedgerError)
    (h : l.add_payment_with_timestamp memo payment c now = some (.error e, l'))
    (he : e = .expiredTx ∨ e = .futureTx ∨ e = .duplicateTx) :
    l.purge_old_transactions now = some l' := by
  unfold Ledger.add_payment_with_timestamp at h
  rw [Option.bind_eq_some'] at h
  obtain ⟨lp, hlp, h⟩ := h
  dsimp only at h
  split at h
  · obtain ⟨-, h2⟩ := Prod.mk.injEq .. ▸ Option.some.inj h
    rw [hlp, h2]
  · split at h
    · obtain ⟨-, h2⟩ := Prod.mk.injEq .. ▸ Option.some.inj h
      rw [hlp, h2]
    · split at h
      · obtain ⟨-, h2⟩ := Prod.mk.injEq .. ▸ Option.some.inj h
        rw [hlp, h2]
      · rw [Option.bind_eq_some'] at h
        obtain ⟨b₁, -, h⟩ := h
        split at h
        · rename_i heq
          obtain ⟨h1, -⟩ := Prod.mk.injEq .. ▸ Option.some.inj h
          obtain ⟨hkind, -⟩ := add_block_error_kind heq
          cases Except.error.inj h1
          rcases hkind with h3 | h3 <;> rcases he with h4 | h4 | h4 <;>
            simp [h3] at h4
        · rw [Option.bind_eq_some'] at h
          obtain ⟨l₃, -, h⟩ := h
          split at h
          · cases h
          · cases (Prod.mk.injEq .. ▸ Option.some.inj h).1

/-- A concrete ledger whose chain tip has timestamp 10 and whose balances
hold 5 subunits on account 1. -/
def ledgerTipTs10 : Ledger :=
  ⟨⟨[(1, tok 5)], tok (maxE8s - 5)⟩, ⟨[], none, 10, 0⟩, 50000000, 100000,
    none, [], 86400 * 1000000000, [], [], []⟩

/-- **C2, counterexample.**  Submitting a mint at `now = 5` against
`ledgerTipTs10` (chain tip timestamp 10) passes every validation check,
mutates the balances, and only then fails the chain append with the
timestamp-regression error: `add_payment_with_timestamp` returns an error
among those listed by the claim, yet the returned state's balances differ
from the post-purge (= initial) balances, so the state is not unchanged. -/
theorem validation_error_counterexample :
    (Ledger.add_payment_with_timestamp ledgerTipTs10 0 (.Mint 2 (tok 3))
        (some 5) 5).map
        (fun r => (r.1, r.2.balances, r.2.blockchain)) =
      some (.error .timestampTooOld,
        ⟨[(1, tok 5), (2, tok 3)], tok (maxE8s - 8)⟩, ⟨[], none, 10, 0⟩) ∧
    ledgerTipTs10.purge_old_transactions 5 = some ledgerTipTs10 ∧
    (⟨[(1, tok 5), (2, tok 3)], tok (maxE8s - 8)⟩ : Balances) ≠
      ledgerTipTs10.balances := by
  refine ⟨by decide, by decide, by decide⟩

/-- Witness for C2 (amended): an expired transaction against the default
ledger leaves the state exactly at the post-purge state. -/
theorem validation_error_no_mutation_witness :
    Ledger.init.purge_old_transactions (86400 * 1000000000 + 1) =
      some Ledger.init :=
  validation_error_no_mutation Ledger.init Ledger.init 0 (.Mint 1 (tok 5))
    (some 0) (86400 * 1000000000 + 1) .expiredTx (by decide) (Or.inl rfl)

/-! ## C5: the account-trim trigger -/

lemma heapPush_length (e : TOKENs × AccountIdentifier) :
    ∀ h : List (TOKENs × AccountIdentifier),
      (heapPush e h).length = h.length + 1 := by
  intro h
  induction h with
  | nil => rfl
  | cons e' rest ih =>
    unfold heapPush
    split
    · simp
    · simp [ih]

lemma selectAccountsToTrim_length (b : Balances) (k : Nat) :
    (selectAccountsToTrim b k).length = min k b.store.length := by
  unfold selectAccountsToTrim
  have hseed : ∀ (l : List (AccountIdentifier × TOKENs))
      (h : List (TOKENs × AccountIdentifier)),
      (l.foldl (fun h p => heapPush (p.2, p.1) h) h).length =
        h.length + l.length := by
    intro l
    induction l with
    | nil => intro h; simp
    | cons p rest ih =>
      intro h
      simp only [List.foldl_cons, ih, heapPush_length, List.length_cons]
      omega
  have hkeep : ∀ (l : List (AccountIdentifier × TOKENs))
      (h : List (TOKENs × AccountIdentifier)),
      (l.foldl (fun h p =>
        match h with
        | [] => h
        | greatest :: _ =>
          if p.2.val < greatest.1.val then (heapPush (p.2, p.1) h).tail
          else h) h).length = h.length := by
    intro l
    induction l with
    | nil => intro h; simp
    | cons p rest ih =>
      intro h
      simp only [List.foldl_cons]
      rw [ih]
      cases h with
      | nil => rfl
      | cons g hr =>
        dsimp only
        split
        · simp [heapPush_length]
        · rfl
  rw [hkeep, hseed, List.length_take]
  simp

/-- Shape of the synthetic blocks appended by the trim loop: a `Burn`
with default memo, `created_at_time = now` and block timestamp `now`. -/
def burnShape (e : EncodedBlock) (now : Nat) : Prop :=
  (∃ a amt, e.block.transaction.operation = .Burn a amt) ∧
  e.block.transaction.memo = 0 ∧
  e.block.transaction.created_at_time = now ∧
  e.block.timestamp = now

lemma add_block_ok {bc bc' : Blockchain} {blk : Block} {h₀ : Nat}
    (heq : bc.add_block blk = (.ok h₀, bc')) :
    blk.parent_hash = bc.last_hash ∧ ¬blk.timestamp < bc.last_timestamp ∧
      bc' = ⟨bc.blocks ++ [blk.encode], some blk.encode.hashNat,
        blk.timestamp, bc.num_archived_blocks⟩ ∧
      h₀ = bc.num_archived_blocks + bc.blocks.length := by
  unfold Blockchain.add_block Blockchain.add_block_with_encoded at heq
  split at heq
  · cases (Prod.mk.injEq .. ▸ heq).1
  · split at heq
    · cases (Prod.mk.injEq .. ▸ heq).1
    · rename_i hp ht
      obtain ⟨h1, h2⟩ := Prod.mk.injEq .. ▸ heq
      refine ⟨not_not.mp hp, ht, h2.symm, ?_⟩
      cases Except.ok.inj h1
      simp only [Blockchain.chain_length, Blockchain.num_unarchived_blocks,
        List.length_append, List.length_cons, List.length_nil]
      omega

lemma add_block_eq_ok (bc : Blockchain) (blk : Block)
    (hp : blk.parent_hash = bc.last_hash)
    (ht : ¬blk.timestamp < bc.last_timestamp) :
    bc.add_block blk = (.ok (bc.num_archived_blocks + bc.blocks.length),
      ⟨bc.blocks ++ [blk.encode], some blk.encode.hashNat, blk.timestamp,
        bc.num_archived_blocks⟩) := by
  unfold Blockchain.add_block Blockchain.add_block_with_encoded
  rw [if_neg (by simpa using hp), if_neg ht]
  simp only [Blockchain.chain_length, Blockchain.num_unarchived_blocks,
    List.length_append, List.length_cons, List.length_nil]
  have harith : bc.num_archived_blocks + (bc.blocks.length + (0 + 1)) - 1 =
      bc.num_archived_blocks + bc.blocks.length := by omega
  rw [harith]

/-- Behaviour of the trim loop on success: it leaves the dedup indices,
notification set and configuration untouched, appends one burn-shaped
block per selected account, keeps `last_timestamp = now`, keeps the chain
hash present, and preserves the balance invariant. -/
lemma trimLoop_spec (now : Nat) :
    ∀ (ts : List (TOKENs × AccountIdentifier)) (l l₃ : Ledger),
      trimLoop now l ts = some l₃ →
      l₃.transactions_by_hash = l.transactions_by_hash ∧
      l₃.transactions_by_height = l.transactions_by_height ∧
      l₃.blocks_notified = l.blocks_notified ∧
      l₃.transaction_window = l.transaction_window ∧
      l₃.maximum_number_of_accounts = l.maximum_number_of_accounts ∧
      l₃.accounts_overflow_trim_quantity = l.accounts_overflow_trim_quantity ∧
      (∃ new, l₃.blockchain.blocks = l.blockchain.blocks ++ new ∧
        new.length = ts.length ∧
        (new.map fun e => e.block.transaction.operation) =
          (ts.map fun p => Operation.Burn p.2 p.1) ∧
        ∀ e ∈ new, burnShape e now) ∧
      (l.blockchain.last_timestamp = now →
        l₃.blockchain.last_timestamp = now) ∧
      (l.blockchain.last_hash.isSome → l₃.blockchain.last_hash.isSome) ∧
      (BalInv l.balances → BalInv l₃.balances) := by
  intro ts
  induction ts with
  | nil =>
    intro l l₃ h
    cases h
    exact ⟨rfl, rfl, rfl, rfl, rfl, rfl,
      ⟨[], (List.append_nil _).symm, rfl, rfl,
        fun e he => absurd he (List.not_mem_nil e)⟩,
      fun h => h, fun h => h, fun h => h⟩
  | cons e rest ih =>
    intro l l₃ h
    obtain ⟨balance, account⟩ := e
    unfold trimLoop at h
    rw [Option.bind_eq_some'] at h
    obtain ⟨b', hb', h⟩ := h
    split at h
    · rename_i h₀ bc' heq
      obtain ⟨-, -, hbc', -⟩ := add_block_ok heq
      obtain ⟨ih1, ih2, ih3, ih4, ih5, ih6, ⟨new, hnew, hlen, hops, hshape⟩,
        ihts, ihhash, ihinv⟩ := ih _ _ h
      subst hbc'
      refine ⟨ih1, ih2, ih3, ih4, ih5, ih6,
        ⟨Block.encode (Block.new_from_transaction l.blockchain.last_hash
          ⟨.Burn account balance, 0, now⟩ now) :: new, ?_, by simp [hlen],
          ?_, ?_⟩,
        fun _ => ihts rfl, fun _ => ihhash rfl, fun hinv =>
          ihinv (addPayment_inv hb' hinv)⟩
      · simpa using hnew
      · rw [List.map_cons, List.map_cons, hops]
        rfl
      · intro b hb
        rcases List.mem_cons.mp hb with h1 | h2
        · subst h1
          exact ⟨⟨account, balance, rfl⟩, rfl, rfl, rfl⟩
        · exact hshape b h2
    · cases h

lemma purge_fields {l lp : Ledger} {now : Nat}
    (h : l.purge_old_transactions now = some lp) :
    lp.balances = l.balances ∧ lp.blockchain = l.blockchain ∧
      lp.maximum_number_of_accounts = l.maximum_number_of_accounts ∧
      lp.accounts_overflow_trim_quantity =
        l.accounts_overflow_trim_quantity ∧
      lp.transaction_window = l.transaction_window := by
  unfold Ledger.purge_old_transactions at h
  obtain ⟨r, -, hr⟩ := Option.map_eq_some'.1 h
  cases hr
  exact ⟨rfl, rfl, rfl, rfl, rfl⟩

/-! ## C4: the dedup window -/

lemma subperm_map {α β : Type} (f : α → β) {l₁ l₂ : List α}
    (h : List.Subperm l₁ l₂) : List.Subperm (l₁.map f) (l₂.map f) := by
  obtain ⟨l, hperm, hsub⟩ := h
  exact ⟨l.map f, hperm.map f, hsub.map f⟩

lemma subperm_nodup {α : Type} {l₁ l₂ : List α} (h : List.Subperm l₁ l₂)
    (hn : l₂.Nodup) : l₁.Nodup := by
  obtain ⟨l, hperm, hsub⟩ := h
  exact hperm.nodup_iff.mp (hn.sublist hsub)

lemma alookup_none_iff (h : Nat) : ∀ l : List (Nat × Nat),
    alookup h l = none ↔ h ∉ l.map Prod.fst := by
  intro l
  induction l with
  | nil => simp [alookup]
  | cons p rest ih =>
    unfold alookup
    by_cases hk : p.1 = h
    · simp [hk]
    · simp only [if_neg hk, ih, List.map_cons, List.mem_cons]
      constructor
      · intro hmem h2
        rcases h2 with h3 | h3
        · exact hk h3.symm
        · exact hmem h3
      · intro h2 h3
        exact h2 (Or.inr h3)

lemma acontains_iff_mem (h : Nat) (l : List (Nat × Nat)) :
    acontains h l = true ↔ h ∈ l.map Prod.fst := by
  unfold acontains
  rw [Option.isSome_iff_ne_none]
  constructor
  · intro h1
    by_contra h2
    exact h1 ((alookup_none_iff h l).mpr h2)
  · intro h1 h2
    exact absurd h1 ((alookup_none_iff h l).mp h2)

lemma aremove_keys (h : Nat) (l : List (Nat × Nat)) :
    (aremove h l).map Prod.fst = (l.map Prod.fst).filter (fun k => k ≠ h) := by
  unfold aremove
  rw [List.filter_map]
  rfl

/-- Specification of the purge loop under the lockstep invariant: it
succeeds, drops an expired prefix of the queue, keeps the two dedup
indices in lockstep, and stops at the first sufficiently recent entry. -/
lemma purgeGo_spec (now win : Nat) : ∀ (q : List TransactionInfo)
    (bh : List (Nat × Nat)) (nf : List Nat),
    List.Perm (bh.map Prod.fst) (q.map TransactionInfo.transaction_hash) →
    (q.map TransactionInfo.transaction_hash).Nodup →
    ∃ i bh' nf', purgeGo now win q bh nf = some (q.drop i, bh', nf') ∧
      List.Perm (bh'.map Prod.fst)
        ((q.drop i).map TransactionInfo.transaction_hash) ∧
      (∀ e ∈ q.take i, e.block_timestamp + win ≤ now) ∧
      (q.drop i = [] ∨ ∃ e q', q.drop i = e :: q' ∧
        now < e.block_timestamp + win) := by
  intro q
  induction q with
  | nil =>
    intro bh nf hperm _
    exact ⟨0, bh, nf, rfl, hperm, by simp, Or.inl rfl⟩
  | cons info rest ih =>
    intro bh nf hperm hnd
    by_cases hrecent : now < info.block_timestamp + win
    · refine ⟨0, bh, nf, ?_, hperm, by simp, Or.inr ⟨info, rest, rfl, hrecent⟩⟩
      unfold purgeGo
      rw [if_pos hrecent, List.drop_zero]
    · have hmem : info.transaction_hash ∈ bh.map Prod.fst := by
        refine hperm.mem_iff.mpr ?_
        simp
      have hlook : alookup info.transaction_hash bh ≠ none := by
        intro hnone
        exact absurd hmem ((alookup_none_iff _ _).mp hnone)
      obtain ⟨bhh, hbhh⟩ := Option.ne_none_iff_exists'.mp hlook
      simp only [List.map_cons, List.nodup_cons] at hnd
      have hperm2 : List.Perm ((aremove info.transaction_hash bh).map Prod.fst)
          (rest.map TransactionInfo.transaction_hash) := by
        rw [aremove_keys]
        have h1 := hperm.filter (fun k => decide (k ≠ info.transaction_hash))
        have h2 : (List.map TransactionInfo.transaction_hash
            (info :: rest)).filter
              (fun k => decide (k ≠ info.transaction_hash)) =
            rest.map TransactionInfo.transaction_hash := by
          simp only [List.map_cons, List.filter_cons]
          rw [if_neg (by simp)]
          exact List.filter_eq_self.mpr fun a ha => by
            simp only [decide_eq_true_eq]
            intro heq
            exact hnd.1 (heq ▸ ha)
        rw [h2] at h1
        exact h1
      obtain ⟨i, bh', nf', hgo, hperm', htake, hstop⟩ :=
        ih (aremove info.transaction_hash bh)
          (nf.filter fun h => h ≠ bhh) hperm2 hnd.2
      refine ⟨i + 1, bh', nf', ?_, hperm', ?_, hstop⟩
      · unfold purgeGo
        rw [if_neg hrecent, hbhh]
        exact hgo
      · intro e he
        simp only [List.take_succ_cons, List.mem_cons] at he
        rcases he with h1 | h2
        · subst h1; omega
        · exact htake e h2

/-- `BalancesStore::get_balance` on the association-list store. -/
def storeGet (k : AccountIdentifier) : Store → Option TOKENs
  | [] => none
  | (k', v) :: rest => if k' = k then some v else storeGet k rest

lemma storeGet_of_mem {k : AccountIdentifier} {v : TOKENs} :
    ∀ {s : Store}, (s.map Prod.fst).Nodup → (k, v) ∈ s →
      storeGet k s = some v := by
  intro s
  induction s with
  | nil => intro _ h; cases h
  | cons p rest ih =>
    intro hnd hmem
    obtain ⟨k', v'⟩ := p
    simp only [List.map_cons, List.nodup_cons] at hnd
    rcases List.mem_cons.mp hmem with h1 | h2
    · cases h1
      simp [storeGet]
    · unfold storeGet
      split
      · rename_i hk
        subst hk
        exact absurd (List.mem_map_of_mem Prod.fst h2) hnd.1
      · exact ih hnd.2 h2

lemma storeGet_le_sum {k : AccountIdentifier} {v : TOKENs} :
    ∀ {s : Store}, storeGet k s = some v → v.val ≤ sumVals s := by
  intro s
  induction s with
  | nil => intro h; cases h
  | cons p rest ih =>
    intro h
    unfold storeGet at h
    split at h
    · cases h
      simp only [sumVals, List.map_cons, List.sum_cons]
      omega
    · have := ih h
      simp only [sumVals, List.map_cons, List.sum_cons] at this ⊢
      omega

lemma storeUpdate_debit_exact {k : AccountIdentifier} {v : TOKENs} :
    ∀ {s : Store}, storeGet k s = some v →
      ∃ s', storeUpdate k (debitF v) s = some s' ∧
        ∀ k', k' ≠ k → storeGet k' s' = storeGet k' s := by
  intro s
  induction s with
  | nil => intro h; cases h
  | cons p rest ih =>
    intro h
    obtain ⟨k', v'⟩ := p
    unfold storeGet at h
    by_cases hk : k' = k
    · rw [if_pos hk] at h
      cases h
      subst hk
      refine ⟨rest, ?_, ?_⟩
      · rw [storeUpdate_cons_self]
        simp [debitF]
      · intro k'' hk''
        have hr : storeGet k'' ((k', v) :: rest) = storeGet k'' rest := by
          simp only [storeGet]
          rw [if_neg fun h => hk'' h.symm]
        rw [hr]
    · rw [if_neg hk] at h
      obtain ⟨r, hr, hget⟩ := ih h
      refine ⟨(k', v') :: r, ?_, ?_⟩
      · rw [storeUpdate_cons_ne (fun h => hk h.symm), hr]
        rfl
      · intro k'' hk''
        have ha : storeGet k'' ((k', v') :: r) =
            if k' = k'' then some v' else storeGet k'' r := by
          simp only [storeGet]
        have hb : storeGet k'' ((k', v') :: rest) =
            if k' = k'' then some v' else storeGet k'' rest := by
          simp only [storeGet]
        rw [ha, hb]
        by_cases h2 : k' = k''
        · rw [if_pos h2, if_pos h2]
        · rw [if_neg h2, if_neg h2]
          exact hget k'' hk''

lemma heapPush_perm (e : TOKENs × AccountIdentifier) :
    ∀ h : List (TOKENs × AccountIdentifier),
      List.Perm (heapPush e h) (e :: h) := by
  intro h
  induction h with
  | nil => exact List.Perm.refl _
  | cons e' rest ih =>
    unfold heapPush
    split
    · exact List.Perm.refl _
    · exact (ih.cons e').trans (List.Perm.swap e e' rest)

lemma seed_perm : ∀ (l : List (AccountIdentifier × TOKENs))
    (h : List (TOKENs × AccountIdentifier)),
    List.Perm (l.foldl (fun h p => heapPush (p.2, p.1) h) h)
      ((l.map fun p => (p.2, p.1)) ++ h) := by
  intro l
  induction l with
  | nil => intro h; simp
  | cons p rest ih =>
    intro h
    simp only [List.foldl_cons, List.map_cons, List.cons_append]
    exact (ih (heapPush (p.2, p.1) h)).trans
      (((heapPush_perm (p.2, p.1) h).append_left _).trans List.perm_middle)

lemma phase2_subperm : ∀ (l : List (AccountIdentifier × TOKENs))
    (h S : List (TOKENs × AccountIdentifier)), List.Subperm h S →
    List.Subperm
      (l.foldl (fun h p =>
        match h with
        | [] => h
        | greatest :: _ =>
          if p.2.val < greatest.1.val then (heapPush (p.2, p.1) h).tail
          else h) h)
      ((l.map fun p => (p.2, p.1)) ++ S) := by
  intro l
  induction l with
  | nil => intro h S hsp; simpa using hsp
  | cons p rest ih =>
    intro h S hsp
    simp only [List.foldl_cons, List.map_cons, List.cons_append]
    have hstep : List.Subperm
        (match h with
        | [] => h
        | greatest :: _ =>
          if p.2.val < greatest.1.val then (heapPush (p.2, p.1) h).tail
          else h) ((p.2, p.1) :: S) := by
      cases h with
      | nil => exact hsp.cons_right _
      | cons g hr =>
        dsimp only
        split
        · refine List.Subperm.trans ?_ ((List.subperm_cons (p.2, p.1)).mpr hsp)
          exact ((List.tail_sublist _).subperm).trans
            (heapPush_perm (p.2, p.1) (g :: hr)).subperm
        · exact hsp.cons_right _
    exact ((ih _ _ hstep).trans List.perm_middle.subperm)

lemma select_subperm (b : Balances) (k : Nat) :
    List.Subperm (selectAccountsToTrim b k)
      (b.store.map fun p => (p.2, p.1)) := by
  unfold selectAccountsToTrim
  have hseed := seed_perm (b.store.take k) []
  rw [List.append_nil] at hseed
  have h2 := phase2_subperm (b.store.drop k) _ _ hseed.subperm
  refine h2.trans ?_
  refine List.Perm.subperm ?_
  rw [← List.map_append]
  exact List.Perm.map _ (List.perm_append_comm.trans
    (List.Perm.of_eq (List.take_append_drop k b.store)))

lemma select_facts {b : Balances} {k : Nat} (hwf : StoreWf b.store) :
    (∀ p ∈ selectAccountsToTrim b k, storeGet p.2 b.store = some p.1) ∧
      ((selectAccountsToTrim b k).map Prod.snd).Nodup := by
  have hsp := select_subperm b k
  constructor
  · intro p hp
    have hmem := hsp.subset hp
    simp only [List.mem_map] at hmem
    obtain ⟨q, hq, hqe⟩ := hmem
    have : p = (q.2, q.1) := hqe.symm
    subst this
    exact storeGet_of_mem hwf.1 (by simpa using hq)
  · have h1 := subperm_map Prod.snd hsp
    rw [List.map_map] at h1
    have h2 : (b.store.map ((fun p => p.2) ∘ fun p => (p.2, p.1))) =
        b.store.map Prod.fst := rfl
    rw [h2] at h1
    exact subperm_nodup h1 hwf.1

/-- Under the balance invariant, burning the selected accounts (distinct
accounts, each with its exact stored balance) never panics: the debits are
exact, the pool stays within `u64::MAX` by conservation, and the appended
blocks extend the tip at the same timestamp. -/
lemma trimLoop_ok (now : Nat) : ∀ (ts : List (TOKENs × AccountIdentifier))
    (l : Ledger), BalInv l.balances →
    (∀ p ∈ ts, storeGet p.2 l.balances.store = some p.1) →
    (ts.map Prod.snd).Nodup →
    l.blockchain.last_timestamp = now →
    ∃ l₃, trimLoop now l ts = some l₃ := by
  intro ts
  induction ts with
  | nil => intro l _ _ _ _; exact ⟨l, rfl⟩
  | cons p rest ih =>
    intro l hinv hget hnd hts
    obtain ⟨bal, acct⟩ := p
    have hga : storeGet acct l.balances.store = some bal :=
      hget (bal, acct) (List.mem_cons_self _ _)
    obtain ⟨s', hs', hpres⟩ := storeUpdate_debit_exact hga
    have hdeb : l.balances.debit acct bal =
        some (Balances.mk s' l.balances.icpt_pool) := by
      unfold Balances.debit
      rw [hs']
      rfl
    have hle : bal.val ≤ sumVals l.balances.store := storeGet_le_sum hga
    obtain ⟨hwf, hsum⟩ := hinv
    have hpool : l.balances.icpt_pool.val + bal.val < u64Card := by
      have hm : maxE8s < u64Card := by norm_num [maxE8s, u64Card]
      omega
    have hadd : TOKENs.checkedAdd l.balances.icpt_pool bal =
        some ⟨l.balances.icpt_pool.val + bal.val, hpool⟩ := by
      unfold TOKENs.checkedAdd
      rw [dif_pos hpool]
    have hbp : l.balances.add_payment (.Burn acct bal) =
        some ⟨s', ⟨l.balances.icpt_pool.val + bal.val, hpool⟩⟩ := by
      show (l.balances.debit acct bal).bind (fun b₁ =>
        (TOKENs.checkedAdd b₁.icpt_pool bal).map fun pool =>
          Balances.mk b₁.store pool) =
        some (Balances.mk s' ⟨l.balances.icpt_pool.val + bal.val, hpool⟩)
      rw [hdeb, Option.some_bind]
      dsimp only
      rw [hadd]
      rfl
    have hab := add_block_eq_ok l.blockchain
      (Block.new_from_transaction l.blockchain.last_hash
        ⟨.Burn acct bal, 0, now⟩ now) rfl
      (by rw [hts]; exact lt_irrefl now)
    have hinv' : BalInv (Balances.mk s'
        ⟨l.balances.icpt_pool.val + bal.val, hpool⟩) :=
      addPayment_inv hbp ⟨hwf, hsum⟩
    obtain ⟨l₃, hl₃⟩ := ih
      { l with
        balances := ⟨s', ⟨l.balances.icpt_pool.val + bal.val, hpool⟩⟩
        blockchain :=
          ⟨l.blockchain.blocks ++ [(Block.new_from_transaction
              l.blockchain.last_hash ⟨.Burn acct bal, 0, now⟩ now).encode],
            some (Block.new_from_transaction l.blockchain.last_hash
              ⟨.Burn acct bal, 0, now⟩ now).encode.hashNat,
            (Block.new_from_transaction l.blockchain.last_hash
              ⟨.Burn acct bal, 0, now⟩ now).timestamp,
            l.blockchain.num_archived_blocks⟩ }
      hinv'
      (by
        intro q hq
        have hne : q.2 ≠ acct := by
          intro heq
          simp only [List.map_cons, List.nodup_cons] at hnd
          exact hnd.1 (heq ▸ List.mem_map_of_mem Prod.snd hq)
        show storeGet q.2 s' = some q.1
        rw [hpres q.2 hne]
        exact hget q (by simp [hq]))
      (by simp only [List.map_cons, List.nodup_cons] at hnd; exact hnd.2)
      rfl
    refine ⟨l₃, ?_⟩
    unfold trimLoop
    rw [hbp, Option.some_bind, hab]
    exact hl₃

lemma pairGt_asymm {a b : TOKENs × AccountIdentifier} (h : pairGt a b) :
    ¬ pairGt b a := by
  unfold pairGt at h ⊢
  rcases h with h | ⟨h1, h2⟩
  · rintro (h3 | ⟨h4, h5⟩)
    · omega
    · omega
  · rintro (h3 | ⟨h4, h5⟩)
    · omega
    · exact absurd h5 (Nat.lt_asymm h2)

lemma pairGt_trans {a b c : TOKENs × AccountIdentifier}
    (h1 : pairGt a b) (h2 : pairGt b c) : pairGt a c := by
  unfold pairGt at h1 h2 ⊢
  rcases h1 with h1 | ⟨h1a, h1b⟩
  · rcases h2 with h2 | ⟨h2a, h2b⟩
    · exact Or.inl (by omega)
    · exact Or.inl (by omega)
  · rcases h2 with h2 | ⟨h2a, h2b⟩
    · exact Or.inl (by omega)
    · exact Or.inr ⟨by omega, Nat.lt_trans h2b h1b⟩

lemma notGt_balance_le {a b : TOKENs × AccountIdentifier}
    (h : ¬ pairGt b a) : b.1.val ≤ a.1.val := by
  by_contra hc
  refine h ?_
  unfold pairGt
  exact Or.inl (by omega)

/-- `heapPush` preserves the descending sortedness of the heap list. -/
lemma heapPush_sorted (e : TOKENs × AccountIdentifier) :
    ∀ h : List (TOKENs × AccountIdentifier),
      List.Pairwise (fun a b => ¬ pairGt b a) h →
      List.Pairwise (fun a b => ¬ pairGt b a) (heapPush e h) := by
  intro h
  induction h with
  | nil =>
    intro _
    exact List.Pairwise.cons (fun y hy => absurd hy (List.not_mem_nil y))
      List.Pairwise.nil
  | cons e' rest ih =>
    intro hp
    obtain ⟨he', hrest⟩ := List.pairwise_cons.mp hp
    unfold heapPush
    split
    · rename_i hgt
      refine List.Pairwise.cons ?_ hp
      intro x hx
      rcases List.mem_cons.mp hx with rfl | h1
      · exact pairGt_asymm hgt
      · intro hxe
        exact he' x h1 (pairGt_trans hxe hgt)
    · rename_i hngt
      refine List.Pairwise.cons ?_ (ih hrest)
      intro x hx
      rcases List.mem_cons.mp ((heapPush_perm e rest).mem_iff.mp hx)
        with rfl | h1
      · exact hngt
      · exact he' x h1

/-- In a descending-sorted heap the head carries the maximal balance. -/
lemma sorted_head_max {g : TOKENs × AccountIdentifier}
    {hr : List (TOKENs × AccountIdentifier)}
    (hp : List.Pairwise (fun a b => ¬ pairGt b a) (g :: hr)) :
    ∀ x ∈ g :: hr, x.1.val ≤ g.1.val := by
  intro x hx
  rcases List.mem_cons.mp hx with rfl | h1
  · exact le_refl _
  · exact notGt_balance_le ((List.pairwise_cons.mp hp).1 x h1)

/-- The per-entry body of the second loop of `select_accounts_to_trim`:
if the entry's balance is strictly below the heap maximum's balance, push
it and pop the maximum, otherwise keep the heap. -/
def trimStep : List (TOKENs × AccountIdentifier) →
    AccountIdentifier × TOKENs → List (TOKENs × AccountIdentifier)
  | [], _ => []
  | greatest :: rest, p =>
    if p.2.val < greatest.1.val then
      (heapPush (p.2, p.1) (greatest :: rest)).tail
    else greatest :: rest

lemma trimStep_sorted (h : List (TOKENs × AccountIdentifier))
    (p : AccountIdentifier × TOKENs)
    (hp : List.Pairwise (fun a b => ¬ pairGt b a) h) :
    List.Pairwise (fun a b => ¬ pairGt b a) (trimStep h p) := by
  cases h with
  | nil => exact List.Pairwise.nil
  | cons g hr =>
    simp only [trimStep]
    split
    · rename_i hlt
      have hng : ¬ pairGt (p.2, p.1) g := by
        unfold pairGt
        dsimp only
        rintro (h1 | ⟨h1, h2⟩) <;> omega
      rw [show heapPush (p.2, p.1) (g :: hr) = g :: heapPush (p.2, p.1) hr
          from by
        simp only [heapPush]
        rw [if_neg hng], List.tail_cons]
      exact heapPush_sorted _ _ (List.pairwise_cons.mp hp).2
    · exact hp

lemma phase2_nil : ∀ (l : List (AccountIdentifier × TOKENs)),
    l.foldl trimStep [] = [] := by
  intro l
  induction l with
  | nil => rfl
  | cons p rest ih =>
    rw [List.foldl_cons]
    exact ih

/-- The seeding loop of `select_accounts_to_trim` keeps the heap sorted. -/
lemma seed_sorted : ∀ (l : List (AccountIdentifier × TOKENs))
    (h : List (TOKENs × AccountIdentifier)),
    List.Pairwise (fun a b => ¬ pairGt b a) h →
    List.Pairwise (fun a b => ¬ pairGt b a)
      (l.foldl (fun h p => heapPush (p.2, p.1) h) h) := by
  intro l
  induction l with
  | nil => intro h hp; exact hp
  | cons p rest ih =>
    intro h hp
    rw [List.foldl_cons]
    exact ih _ (heapPush_sorted _ _ hp)

/-- Invariant of the scanning loop of `select_accounts_to_trim`: a heap
entry either survives to the result or its balance bounds every result
balance from above; a scanned store entry is either taken into the result
or its balance bounds every result balance from above; and every result
balance is bounded by some current heap balance. -/
lemma phase2_lowest : ∀ (l : List (AccountIdentifier × TOKENs))
    (h : List (TOKENs × AccountIdentifier)),
    List.Pairwise (fun a b => ¬ pairGt b a) h →
    (∀ x ∈ h, x ∈ l.foldl trimStep h ∨
      ∀ p ∈ l.foldl trimStep h, p.1.val ≤ x.1.val) ∧
    (∀ q ∈ l, (q.2, q.1) ∈ l.foldl trimStep h ∨
      ∀ p ∈ l.foldl trimStep h, p.1.val ≤ q.2.val) ∧
    (∀ p ∈ l.foldl trimStep h, ∃ x ∈ h, p.1.val ≤ x.1.val) := by
  intro l
  induction l with
  | nil =>
    intro h hp
    exact ⟨fun x hx => Or.inl hx,
      fun q hq => absurd hq (List.not_mem_nil q),
      fun p hp' => ⟨p, hp', le_refl _⟩⟩
  | cons p rest ih =>
    intro h hp
    simp only [List.foldl_cons]
    obtain ⟨i2, i3, i4⟩ := ih (trimStep h p) (trimStep_sorted h p hp)
    refine ⟨?_, ?_, ?_⟩
    · intro x hx
      cases h with
      | nil => exact absurd hx (List.not_mem_nil x)
      | cons g hr =>
        by_cases hlt : p.2.val < g.1.val
        · have hng : ¬ pairGt (p.2, p.1) g := by
            unfold pairGt
            dsimp only
            rintro (h1 | ⟨h1, h2⟩) <;> omega
          have hstep : trimStep (g :: hr) p = heapPush (p.2, p.1) hr := by
            simp only [trimStep]
            rw [if_pos hlt, show heapPush (p.2, p.1) (g :: hr) =
                g :: heapPush (p.2, p.1) hr from by
              simp only [heapPush]
              rw [if_neg hng], List.tail_cons]
          rcases List.mem_cons.mp hx with rfl | hxr
          · refine Or.inr fun p' hp' => ?_
            obtain ⟨x', hx', hle⟩ := i4 p' hp'
            rw [hstep] at hx'
            rcases List.mem_cons.mp
                ((heapPush_perm (p.2, p.1) hr).mem_iff.mp hx') with h1 | h1
            · rw [h1] at hle
              dsimp only at hle
              omega
            · have hxg := notGt_balance_le
                ((List.pairwise_cons.mp hp).1 x' h1)
              omega
          · exact i2 x (by
              rw [hstep, (heapPush_perm (p.2, p.1) hr).mem_iff]
              exact List.mem_cons_of_mem _ hxr)
        · have hstep : trimStep (g :: hr) p = g :: hr := by
            simp only [trimStep]
            rw [if_neg hlt]
          exact i2 x (by rw [hstep]; exact hx)
    · intro q hq
      rcases List.mem_cons.mp hq with hqp | hqr
      · subst hqp
        cases h with
        | nil =>
          refine Or.inr fun p' hp' => ?_
          rw [show trimStep [] q = [] from rfl, phase2_nil] at hp'
          exact absurd hp' (List.not_mem_nil p')
        | cons g hr =>
          by_cases hlt : q.2.val < g.1.val
          · have hng : ¬ pairGt (q.2, q.1) g := by
              unfold pairGt
              dsimp only
              rintro (h1 | ⟨h1, h2⟩) <;> omega
            have hstep : trimStep (g :: hr) q = heapPush (q.2, q.1) hr := by
              simp only [trimStep]
              rw [if_pos hlt, show heapPush (q.2, q.1) (g :: hr) =
                  g :: heapPush (q.2, q.1) hr from by
                simp only [heapPush]
                rw [if_neg hng], List.tail_cons]
            exact i2 (q.2, q.1) (by
              rw [hstep, (heapPush_perm (q.2, q.1) hr).mem_iff]
              exact List.mem_cons_self _ _)
          · have hstep : trimStep (g :: hr) q = g :: hr := by
              simp only [trimStep]
              rw [if_neg hlt]
            refine Or.inr fun p' hp' => ?_
            obtain ⟨x', hx', hle⟩ := i4 p' hp'
            rw [hstep] at hx'
            have hxg := sorted_head_max hp x' hx'
            omega
      · exact i3 q hqr
    · intro p' hp'
      obtain ⟨x', hx', hle⟩ := i4 p' hp'
      cases h with
      | nil =>
        rw [show trimStep [] p = [] from rfl] at hx'
        exact absurd hx' (List.not_mem_nil x')
      | cons g hr =>
        by_cases hlt : p.2.val < g.1.val
        · have hng : ¬ pairGt (p.2, p.1) g := by
            unfold pairGt
            dsimp only
            rintro (h1 | ⟨h1, h2⟩) <;> omega
          have hstep : trimStep (g :: hr) p = heapPush (p.2, p.1) hr := by
            simp only [trimStep]
            rw [if_pos hlt, show heapPush (p.2, p.1) (g :: hr) =
                g :: heapPush (p.2, p.1) hr from by
              simp only [heapPush]
              rw [if_neg hng], List.tail_cons]
          rw [hstep] at hx'
          rcases List.mem_cons.mp
              ((heapPush_perm (p.2, p.1) hr).mem_iff.mp hx') with h1 | h1
          · refine ⟨g, List.mem_cons_self _ _, ?_⟩
            rw [h1] at hle
            dsimp only at hle
            omega
          · exact ⟨x', List.mem_cons_of_mem _ h1, hle⟩
        · have hstep : trimStep (g :: hr) p = g :: hr := by
            simp only [trimStep]
            rw [if_neg hlt]
          rw [hstep] at hx'
          exact ⟨x', hx', hle⟩

/-- The scanning loop of `select_accounts_to_trim`, written with the
named step function. -/
lemma selectAccountsToTrim_eq_fold (b : Balances) (k : Nat) :
    selectAccountsToTrim b k = (b.store.drop k).foldl trimStep
      ((b.store.take k).foldl (fun h p => heapPush (p.2, p.1) h) []) := by
  have hf : (fun (h : List (TOKENs × AccountIdentifier))
      (p : AccountIdentifier × TOKENs) =>
      match h with
      | [] => h
      | greatest :: _ =>
        if p.2.val < greatest.1.val then (heapPush (p.2, p.1) h).tail
        else h) = trimStep := by
    funext h p
    cases h with
    | nil => rfl
    | cons g hr => rfl
  unfold selectAccountsToTrim
  rw [hf]

/-- `select_accounts_to_trim` picks lowest-balance accounts: every store
entry is either selected (as its `(balance, account)` pair) or its
balance is at least every selected balance. -/
lemma select_lowest (b : Balances) (k : Nat) :
    ∀ q ∈ b.store, (q.2, q.1) ∈ selectAccountsToTrim b k ∨
      ∀ p ∈ selectAccountsToTrim b k, p.1.val ≤ q.2.val := by
  intro q hq
  rw [selectAccountsToTrim_eq_fold]
  have hsorted := seed_sorted (b.store.take k) [] List.Pairwise.nil
  obtain ⟨i2, i3, -⟩ := phase2_lowest (b.store.drop k) _ hsorted
  have hsplit : q ∈ b.store.take k ∨ q ∈ b.store.drop k := by
    rw [← List.take_append_drop k b.store] at hq
    exact List.mem_append.mp hq
  rcases hsplit with h1 | h1
  · have hmem : (q.2, q.1) ∈ (b.store.take k).foldl
        (fun h p => heapPush (p.2, p.1) h) [] := by
      rw [(seed_perm _ []).mem_iff, List.append_nil]
      exact List.mem_map.mpr ⟨q, h1, rfl⟩
    exact i2 (q.2, q.1) hmem
  · exact i3 q h1

/-- **C5, amended** (trim trigger and lowest-balance selection).  After a
successful payment, `add_payment_with_timestamp` appends exactly one
payment block plus, if and only if the account count after the payment is
**greater than or equal to** `maximum_number_of_accounts +
accounts_overflow_trim_quantity` (the source uses `>=`, not strict
excess), `accounts_overflow_trim_quantity` synthetic trim blocks, each a
`Burn` with default memo and the same `now` timestamp; below that bound
no trim burns are appended.  The appended burns are exactly (in order)
`Burn account balance` for the `(balance, account)` pairs returned by
`select_accounts_to_trim`; those pairs are drawn from the balance store,
and every account not selected has a balance at least every selected
balance — the lowest-balance accounts are burned. -/
theorem trim_trigger_spec (l l' : Ledger) (memo : Nat) (payment : Operation)
    (c : Option Nat) (now : Nat) (r : Nat × Nat)
    (h : l.add_payment_with_timestamp memo payment c now = some (.ok r, l')) :
    ∃ lp b₁, l.purge_old_transactions now = some lp ∧
      lp.balances.add_payment payment = some b₁ ∧
      l'.blockchain.blocks.length = lp.blockchain.blocks.length + 1 +
        (if l.maximum_number_of_accounts + l.accounts_overflow_trim_quantity ≤
            b₁.store.length
         then l.accounts_overflow_trim_quantity else 0) ∧
      ((l'.blockchain.blocks.drop (lp.blockchain.blocks.length + 1)).map
          fun e => e.block.transaction.operation) =
        ((if l.maximum_number_of_accounts +
              l.accounts_overflow_trim_quantity ≤ b₁.store.length
          then selectAccountsToTrim b₁ l.accounts_overflow_trim_quantity
          else []).map fun p => Operation.Burn p.2 p.1) ∧
      (∀ e ∈ l'.blockchain.blocks.drop (lp.blockchain.blocks.length + 1),
        burnShape e now) ∧
      List.Subperm (selectAccountsToTrim b₁ l.accounts_overflow_trim_quantity)
        (b₁.store.map fun p => (p.2, p.1)) ∧
      (selectAccountsToTrim b₁ l.accounts_overflow_trim_quantity).length =
        min l.accounts_overflow_trim_quantity b₁.store.length ∧
      ∀ q ∈ b₁.store,
        (q.2, q.1) ∈ selectAccountsToTrim b₁
          l.accounts_overflow_trim_quantity ∨
        ∀ p ∈ selectAccountsToTrim b₁ l.accounts_overflow_trim_quantity,
          p.1.val ≤ q.2.val := by
  unfold Ledger.add_payment_with_timestamp at h
  rw [Option.bind_eq_some'] at h
  obtain ⟨lp, hlp, h⟩ := h
  obtain ⟨hbal, hbc, hmax, htrimq, hwin⟩ := purge_fields hlp
  dsimp only at h
  split at h
  · cases (Prod.mk.injEq .. ▸ Option.some.inj h).1
  split at h
  · cases (Prod.mk.injEq .. ▸ Option.some.inj h).1
  split at h
  · cases (Prod.mk.injEq .. ▸ Option.some.inj h).1
  rw [Option.bind_eq_some'] at h
  obtain ⟨b₁, hb₁, h⟩ := h
  split at h
  · cases (Prod.mk.injEq .. ▸ Option.some.inj h).1
  · rename_i height bc' heq
    rw [Option.bind_eq_some'] at h
    obtain ⟨l₃, htrim, h⟩ := h
    split at h
    · cases h
    · obtain ⟨-, hl'⟩ := Prod.mk.injEq .. ▸ Option.some.inj h
      subst hl'
      obtain ⟨-, -, hbc', -⟩ := add_block_ok heq
      obtain ⟨-, -, -, -, -, -, ⟨new, hnew, hlen, hops, hshape⟩, -, -, -⟩ :=
        trimLoop_spec now _ _ _ htrim
      have hdrop : l₃.blockchain.blocks.drop
          (lp.blockchain.blocks.length + 1) = new := by
        rw [hnew, hbc']
        simp only
        rw [show lp.blockchain.blocks.length + 1 =
          (lp.blockchain.blocks ++ [Block.encode
            (Block.new_from_transaction lp.blockchain.last_hash
              ⟨payment, memo, c.getD now⟩ now)]).length by simp]
        rw [List.drop_left]
      refine ⟨lp, b₁, hlp, hb₁, ?_, ?_, ?_, ?_, ?_, ?_⟩
      · rw [hnew, hbc']
        simp only [List.length_append, List.length_cons, List.length_nil]
        rw [hlen]
        split
        · rename_i htrig
          rw [if_pos (by rw [hmax, htrimq] at htrig; exact htrig)]
          rw [selectAccountsToTrim_length]
          rw [htrimq] at *
          omega
        · rename_i htrig
          rw [if_neg (by rw [hmax, htrimq] at htrig; exact htrig)]
          simp
      · rw [hdrop, hops, hmax, htrimq]
      · intro e he
        rw [hdrop] at he
        exact hshape e he
      · exact select_subperm b₁ _
      · rw [selectAccountsToTrim_length]
      · exact select_lowest b₁ _

/-- A concrete ledger configured with `maximum_number_of_accounts = 1` and
`accounts_overflow_trim_quantity = 1`, holding one account. -/
def ledgerCap1 : Ledger :=
  ⟨⟨[(1, tok 5)], tok (maxE8s - 5)⟩, ⟨[], none, 0, 0⟩, 1, 1, none, [],
    86400 * 1000000000, [], [], []⟩

/-- **C5, counterexample.**  Against `ledgerCap1`, a mint to a second
account brings the account count to exactly
`maximum_number_of_accounts + accounts_overflow_trim_quantity = 2` — it
does **not exceed** the bound — yet the code (which triggers on `>=`)
appends a trim burn: two blocks are appended and the lowest-balance
account is removed, contradicting the claim that no trim burns are
appended when the count is at the bound. -/
theorem trim_trigger_counterexample :
    (Ledger.add_payment_with_timestamp ledgerCap1 0 (.Mint 2 (tok 3))
        none 0).map (fun r =>
          (r.1.isOk, r.2.balances.store.length,
            r.2.blockchain.blocks.length)) = some (true, 1, 2) ∧
    (Balances.add_payment ledgerCap1.balances (.Mint 2 (tok 3))).map
        (fun b => b.store.length) = some 2 ∧
    ledgerCap1.maximum_number_of_accounts +
        ledgerCap1.accounts_overflow_trim_quantity = 2 ∧
    ledgerCap1.blockchain.blocks.length = 0 := by
  refine ⟨by decide, by decide, by decide, by decide⟩

/-- Witness for C5 (amended): a successful mint on the default ledger
stays far below the trim bound, so exactly one block is appended, and the
selection facts hold for the resulting single-account store. -/
theorem trim_trigger_spec_witness :
    ∃ lp b₁, Ledger.init.purge_old_transactions 0 = some lp ∧
      lp.balances.add_payment (.Mint 1 (tok 5)) = some b₁ ∧
      (Ledger.mk ⟨[(1, tok 5)], tok (maxE8s - 5)⟩
          ⟨[Block.encode ⟨none, ⟨.Mint 1 (tok 5), 0, 0⟩, 0⟩,],
            some (EncodedBlock.hashNat
              (Block.encode ⟨none, ⟨.Mint 1 (tok 5), 0, 0⟩, 0⟩)), 0, 0⟩
          50000000 100000 none [] (86400 * 1000000000)
          [(Transaction.hashNat ⟨.Mint 1 (tok 5), 0, 0⟩, 0)]
          [⟨0, Transaction.hashNat ⟨.Mint 1 (tok 5), 0, 0⟩⟩]
          []).blockchain.blocks.length =
        lp.blockchain.blocks.length + 1 +
          (if Ledger.init.maximum_number_of_accounts +
              Ledger.init.accounts_overflow_trim_quantity ≤ b₁.store.length
           then Ledger.init.accounts_overflow_trim_quantity else 0) ∧
      (((Ledger.mk ⟨[(1, tok 5)], tok (maxE8s - 5)⟩
          ⟨[Block.encode ⟨none, ⟨.Mint 1 (tok 5), 0, 0⟩, 0⟩,],
            some (EncodedBlock.hashNat
              (Block.encode ⟨none, ⟨.Mint 1 (tok 5), 0, 0⟩, 0⟩)), 0, 0⟩
          50000000 100000 none [] (86400 * 1000000000)
          [(Transaction.hashNat ⟨.Mint 1 (tok 5), 0, 0⟩, 0)]
          [⟨0, Transaction.hashNat ⟨.Mint 1 (tok 5), 0, 0⟩⟩]
          []).blockchain.blocks.drop (lp.blockchain.blocks.length + 1)).map
          fun e => e.block.transaction.operation) =
        ((if Ledger.init.maximum_number_of_accounts +
              Ledger.init.accounts_overflow_trim_quantity ≤ b₁.store.length
          then selectAccountsToTrim b₁
            Ledger.init.accounts_overflow_trim_quantity
          else []).map fun p => Operation.Burn p.2 p.1) ∧
      (∀ e ∈ (Ledger.mk ⟨[(1, tok 5)], tok (maxE8s - 5)⟩
          ⟨[Block.encode ⟨none, ⟨.Mint 1 (tok 5), 0, 0⟩, 0⟩,],
            some (EncodedBlock.hashNat
              (Block.encode ⟨none, ⟨.Mint 1 (tok 5), 0, 0⟩, 0⟩)), 0, 0⟩
          50000000 100000 none [] (86400 * 1000000000)
          [(Transaction.hashNat ⟨.Mint 1 (tok 5), 0, 0⟩, 0)]
          [⟨0, Transaction.hashNat ⟨.Mint 1 (tok 5), 0, 0⟩⟩]
          []).blockchain.blocks.drop (lp.blockchain.blocks.length + 1),
        burnShape e 0) ∧
      List.Subperm (selectAccountsToTrim b₁
          Ledger.init.accounts_overflow_trim_quantity)
        (b₁.store.map fun p => (p.2, p.1)) ∧
      (selectAccountsToTrim b₁
          Ledger.init.accounts_overflow_trim_quantity).length =
        min Ledger.init.accounts_overflow_trim_quantity b₁.store.length ∧
      ∀ q ∈ b₁.store,
        (q.2, q.1) ∈ selectAccountsToTrim b₁
          Ledger.init.accounts_overflow_trim_quantity ∨
        ∀ p ∈ selectAccountsToTrim b₁
          Ledger.init.accounts_overflow_trim_quantity,
          p.1.val ≤ q.2.val :=
  trim_trigger_spec Ledger.init _ 0 (.Mint 1 (tok 5)) none 0
    (0, EncodedBlock.hashNat (Block.encode ⟨none, ⟨.Mint 1 (tok 5), 0, 0⟩, 0⟩))
    (by decide)


/-- Well-formedness of a ledger state, maintained by the ledger operations:
balance conservation, the two dedup indices in lockstep (same hash sets,
no duplicate hashes), and queue timestamps bounded by the chain tip. -/
structure LedgerWf (l : Ledger) : Prop where
  bal : BalInv l.balances
  lock : List.Perm (l.transactions_by_hash.map Prod.fst)
    (l.transactions_by_height.map TransactionInfo.transaction_hash)
  nodupQ : (l.transactions_by_height.map TransactionInfo.transaction_hash).Nodup
  tsBound : ∀ i ∈ l.transactions_by_height,
    i.block_timestamp ≤ l.blockchain.last_timestamp

/-- Ledger-level reading of `purgeGo_spec`. -/
lemma purge_spec (l : Ledger) (now : Nat)
    (hperm : List.Perm (l.transactions_by_hash.map Prod.fst)
      (l.transactions_by_height.map TransactionInfo.transaction_hash))
    (hnd : (l.transactions_by_height.map TransactionInfo.transaction_hash).Nodup) :
    ∃ i lp, l.purge_old_transactions now = some lp ∧
      lp.transactions_by_height = l.transactions_by_height.drop i ∧
      List.Perm (lp.transactions_by_hash.map Prod.fst)
        (lp.transactions_by_height.map TransactionInfo.transaction_hash) ∧
      (∀ e ∈ l.transactions_by_height.take i,
        e.block_timestamp + l.transaction_window ≤ now) ∧
      (lp.transactions_by_height = [] ∨ ∃ e q',
        lp.transactions_by_height = e :: q' ∧
          now < e.block_timestamp + l.transaction_window) ∧
      lp.balances = l.balances ∧ lp.blockchain = l.blockchain ∧
      lp.transaction_window = l.transaction_window := by
  obtain ⟨i, bh', nf', hgo, hperm', htake, hstop⟩ :=
    purgeGo_spec now l.transaction_window l.transactions_by_height
      l.transactions_by_hash l.blocks_notified hperm hnd
  refine ⟨i, { l with
      transactions_by_height := l.transactions_by_height.drop i
      transactions_by_hash := bh'
      blocks_notified := nf' }, ?_, rfl, hperm', htake, ?_, rfl, rfl, rfl⟩
  · unfold Ledger.purge_old_transactions
    rw [hgo]
    rfl
  · exact hstop

/-- State of the ledger after a successful `add_payment_with_timestamp`
from a well-formed state: well-formedness is preserved, the chain tip
timestamp is `now` with a present chain hash, and the dedup queue is the
purged queue (every entry at most `now`) plus the new transaction's entry
pushed at the back with block timestamp `now`. -/
lemma addPayment_ok_full {l l' : Ledger} {memo : Nat} {payment : Operation}
    {c now : Nat} {r : Nat × Nat} (hwf : LedgerWf l)
    (h : l.add_payment_with_timestamp memo payment (some c) now =
      some (.ok r, l')) :
    LedgerWf l' ∧ l'.blockchain.last_timestamp = now ∧
      l'.blockchain.last_hash.isSome = true ∧
      l'.transaction_window = l.transaction_window ∧
      ∃ q₀, l'.transactions_by_height =
          q₀ ++ [⟨now, Transaction.hashNat ⟨payment, memo, c⟩⟩] ∧
        (∀ e ∈ q₀, e.block_timestamp ≤ now) ∧
        Transaction.hashNat ⟨payment, memo, c⟩ ∉
          q₀.map TransactionInfo.transaction_hash := by
  unfold Ledger.add_payment_with_timestamp at h
  rw [Option.bind_eq_some'] at h
  obtain ⟨lp, hlp, h⟩ := h
  obtain ⟨i, lp', hlp', hq, hperm', htake, hstop, hbal', hbc', hwin'⟩ :=
    purge_spec l now hwf.lock hwf.nodupQ
  rw [hlp] at hlp'
  cases Option.some.inj hlp'
  dsimp only [Option.getD_some] at h
  split at h
  · cases (Prod.mk.injEq .. ▸ Option.some.inj h).1
  split at h
  · cases (Prod.mk.injEq .. ▸ Option.some.inj h).1
  split at h
  · cases (Prod.mk.injEq .. ▸ Option.some.inj h).1
  rename_i hdup
  rw [Option.bind_eq_some'] at h
  obtain ⟨b₁, hb₁, h⟩ := h
  split at h
  · cases (Prod.mk.injEq .. ▸ Option.some.inj h).1
  · rename_i height bc' heq
    rw [Option.bind_eq_some'] at h
    obtain ⟨l₃, htrim, h⟩ := h
    split at h
    · cases h
    · rename_i hash hhash
      obtain ⟨-, hl'⟩ := Prod.mk.injEq .. ▸ Option.some.inj h
      subst hl'
      obtain ⟨hp, ht, hbcs, -⟩ := add_block_ok heq
      obtain ⟨s1, s2, s3, s4, s5, s6, ⟨new, hnew, hlen, -, hshape⟩, sts, shash, sinv⟩ :=
        trimLoop_spec now _ _ _ htrim
      have hlastlp : lp.blockchain.last_timestamp ≤ now := not_lt.mp ht
      have hq0 : ∀ e ∈ lp.transactions_by_height, e.block_timestamp ≤ now := by
        intro e he
        refine le_trans ?_ hlastlp
        rw [hbc']
        exact hwf.tsBound e (List.mem_of_mem_drop (hq ▸ he))
      have hts3 : l₃.blockchain.last_timestamp = now := sts (by rw [hbcs]; rfl)
      have hnotin : Transaction.hashNat ⟨payment, memo, c⟩ ∉
          lp.transactions_by_height.map TransactionInfo.transaction_hash := by
        intro hmem
        exact hdup ((acontains_iff_mem _ _).mpr (hperm'.mem_iff.mpr hmem))
      refine ⟨?_, hts3, ?_, ?_, lp.transactions_by_height, by rw [s2]; rfl, hq0,
        hnotin⟩
      · constructor
        · exact sinv (addPayment_inv (hbal' ▸ hb₁) hwf.bal)
        · rw [s1, s2]
          refine List.Perm.trans (List.Perm.cons _ hperm') ?_
          rw [List.map_append]
          exact (List.perm_append_singleton _ _).symm
        · rw [s2, List.map_append]
          rw [List.nodup_append]
          refine ⟨?_, by simp, ?_⟩
          · rw [hq, List.map_drop]
            exact hwf.nodupQ.sublist (List.drop_sublist _ _)
          · intro a ha
            simp only [List.map_cons, List.map_nil, List.mem_cons,
              List.not_mem_nil, or_false]
            intro heqa
            exact hnotin (heqa ▸ ha)
        · intro e he
          rw [s2] at he
          rw [hts3]
          rcases List.mem_append.mp he with h1 | h2
          · exact hq0 e h1
          · simp only [List.mem_cons, List.not_mem_nil, or_false] at h2
            subst h2
            exact le_refl now
      · rw [hhash]
        rfl
      · rw [s4, hwin']

/-- Forward construction of a successful `add_payment_with_timestamp` run:
if the purge succeeds, the three validation checks pass, the balance
update succeeds with the conservation invariant, and `now` does not
precede the chain tip, then the call returns `Ok`. -/
lemma addPayment_succeeds (l : Ledger) (memo : Nat) (payment : Operation)
    (c now : Nat) (lp : Ledger)
    (hp : l.purge_old_transactions now = some lp)
    (hexp : ¬c + lp.transaction_window < now)
    (hfut : ¬now + PERMITTED_DRIFT < c)
    (hdup : acontains (Transaction.hashNat ⟨payment, memo, c⟩)
      lp.transactions_by_hash = false)
    (b₁ : Balances) (hb : lp.balances.add_payment payment = some b₁)
    (hts : ¬now < lp.blockchain.last_timestamp) (hinv : BalInv b₁) :
    ∃ r l', l.add_payment_with_timestamp memo payment (some c) now =
      some (.ok r, l') := by
  have hblk : (Block.new_from_transaction lp.blockchain.last_hash
      ⟨payment, memo, c⟩ now).timestamp = now := rfl
  have hab := add_block_eq_ok lp.blockchain
    (Block.new_from_transaction lp.blockchain.last_hash ⟨payment, memo, c⟩ now)
    rfl (by rw [hblk]; exact hts)
  obtain ⟨l₃, htrim⟩ := trimLoop_ok now
    (if lp.maximum_number_of_accounts + lp.accounts_overflow_trim_quantity ≤
        b₁.store.length
     then selectAccountsToTrim b₁ lp.accounts_overflow_trim_quantity
     else [])
    { lp with
      balances := b₁
      blockchain := ⟨lp.blockchain.blocks ++
          [(Block.new_from_transaction lp.blockchain.last_hash
            ⟨payment, memo, c⟩ now).encode],
        some (Block.new_from_transaction lp.blockchain.last_hash
          ⟨payment, memo, c⟩ now).encode.hashNat,
        (Block.new_from_transaction lp.blockchain.last_hash
          ⟨payment, memo, c⟩ now).timestamp,
        lp.blockchain.num_archived_blocks⟩
      transactions_by_hash := (Transaction.hashNat ⟨payment, memo, c⟩,
        lp.blockchain.num_archived_blocks + lp.blockchain.blocks.length) ::
        lp.transactions_by_hash
      transactions_by_height := lp.transactions_by_height ++
        [⟨(Block.new_from_transaction lp.blockchain.last_hash
          ⟨payment, memo, c⟩ now).timestamp,
          Transaction.hashNat ⟨payment, memo, c⟩⟩] }
    hinv
    (by
      split
      · rename_i htrig
        exact (select_facts hinv.1).1
      · intro p hp2
        cases hp2)
    (by
      split
      · rename_i htrig
        exact (select_facts hinv.1).2
      · exact List.nodup_nil)
    hblk
  obtain ⟨-, -, -, -, -, -, -, -, shash, -⟩ := trimLoop_spec now _ _ _ htrim
  have hsome : l₃.blockchain.last_hash.isSome = true := shash rfl
  obtain ⟨hash, hhash⟩ := Option.isSome_iff_exists.mp hsome
  refine ⟨(lp.blockchain.num_archived_blocks + lp.blockchain.blocks.length,
    hash), l₃, ?_⟩
  unfold Ledger.add_payment_with_timestamp
  rw [hp, Option.some_bind]
  dsimp only [Option.getD_some]
  rw [if_neg hexp, if_neg hfut, if_neg (by rw [hdup]; exact Bool.false_ne_true)]
  rw [hb, Option.some_bind, hab]
  dsimp only
  rw [htrim, Option.some_bind, hhash]

/-- Forward construction of the duplicate-rejection run: when the purged
dedup index still contains the transaction's content hash, the call
returns the duplicate-transaction error with the post-purge state. -/
lemma addPayment_duplicate (l : Ledger) (memo : Nat) (payment : Operation)
    (c now : Nat) (lp : Ledger)
    (hp : l.purge_old_transactions now = some lp)
    (hexp : ¬c + lp.transaction_window < now)
    (hfut : ¬now + PERMITTED_DRIFT < c)
    (hdup : acontains (Transaction.hashNat ⟨payment, memo, c⟩)
      lp.transactions_by_hash = true) :
    l.add_payment_with_timestamp memo payment (some c) now =
      some (.error .duplicateTx, lp) := by
  unfold Ledger.add_payment_with_timestamp
  rw [hp, Option.some_bind]
  dsimp only [Option.getD_some]
  rw [if_neg hexp, if_neg hfut, if_pos hdup]

/-- **C4** (dedup window).  From any well-formed ledger state, after a
transaction `(payment, memo, created_at_time = c)` is successfully added
at time `now₁`: (a) resubmitting the identical transaction at any `now₂`
within the transaction window (the dedup entry not yet purged, the
transaction not yet expired nor in the future) is rejected with the
duplicate-transaction error; and (b) once `now₃` has advanced so that the
recorded entry is purged (`now₁ + window ≤ now₃`), resubmitting the same
transaction is no longer rejected as a duplicate and succeeds (provided
it is not itself expired or in the future and its balance effects apply). -/
theorem dedup_window (l : Ledger) (hwf : LedgerWf l) (memo : Nat)
    (payment : Operation) (c now₁ now₂ : Nat) (r₁ : Nat × Nat) (l₁ : Ledger)
    (h1 : l.add_payment_with_timestamp memo payment (some c) now₁ =
      some (.ok r₁, l₁))
    (h12 : now₁ ≤ now₂) (hwin2 : now₂ < now₁ + l.transaction_window)
    (hexp2 : now₂ ≤ c + l.transaction_window)
    (hfut2 : c ≤ now₂ + PERMITTED_DRIFT) :
    (∃ l₂, l₁.add_payment_with_timestamp memo payment (some c) now₂ =
      some (.error .duplicateTx, l₂)) ∧
    (∀ now₃, now₁ + l.transaction_window ≤ now₃ →
      now₃ ≤ c + l.transaction_window → c ≤ now₃ + PERMITTED_DRIFT →
      (l₁.balances.add_payment payment).isSome →
      ∃ r₃ l₃, l₁.add_payment_with_timestamp memo payment (some c) now₃ =
        some (.ok r₃, l₃)) := by
  obtain ⟨hwf₁, hts₁, hhash₁, hwin₁, q₀, hq₁, hq₀le, hq₀notin⟩ :=
    addPayment_ok_full hwf h1
  constructor
  · obtain ⟨i, lp₂, hp₂, hq₂, hperm₂, htake₂, hstop₂, hbal₂, hbc₂, hwinp₂⟩ :=
      purge_spec l₁ now₂ hwf₁.lock hwf₁.nodupQ
    have hestar : (⟨now₁, Transaction.hashNat ⟨payment, memo, c⟩⟩ :
        TransactionInfo) ∈ lp₂.transactions_by_height := by
      have hmem : (⟨now₁, Transaction.hashNat ⟨payment, memo, c⟩⟩ :
          TransactionInfo) ∈ l₁.transactions_by_height := by
        rw [hq₁]
        exact List.mem_append_right _ (List.mem_singleton_self _)
      have hnt : (⟨now₁, Transaction.hashNat ⟨payment, memo, c⟩⟩ :
          TransactionInfo) ∉ l₁.transactions_by_height.take i := by
        intro hin
        have hle := htake₂ _ hin
        rw [hwin₁] at hle
        simp only at hle
        omega
      rw [hq₂]
      have hmem2 := hmem
      rw [← List.take_append_drop i l₁.transactions_by_height] at hmem2
      rcases List.mem_append.mp hmem2 with h3 | h3
      · exact absurd h3 hnt
      · exact h3
    have hcont : acontains (Transaction.hashNat ⟨payment, memo, c⟩)
        lp₂.transactions_by_hash = true :=
      (acontains_iff_mem _ _).mpr (hperm₂.mem_iff.mpr
        (List.mem_map_of_mem TransactionInfo.transaction_hash hestar))
    refine ⟨lp₂, addPayment_duplicate l₁ memo payment c now₂ lp₂ hp₂ ?_ ?_
      hcont⟩
    · rw [hwinp₂, hwin₁]
      omega
    · omega
  · intro now₃ hw3 he3 hf3 hbs
    obtain ⟨i₃, lp₃, hp₃, hq₃, hperm₃, htake₃, hstop₃, hbal₃, hbc₃, hwinp₃⟩ :=
      purge_spec l₁ now₃ hwf₁.lock hwf₁.nodupQ
    have hall : ∀ e ∈ l₁.transactions_by_height,
        now₃ ≥ e.block_timestamp + l₁.transaction_window := by
      intro e he
      rw [hq₁] at he
      rw [hwin₁]
      rcases List.mem_append.mp he with h3 | h3
      · have := hq₀le e h3
        omega
      · simp only [List.mem_cons, List.not_mem_nil, or_false] at h3
        subst h3
        simp only
        omega
    have hempty : lp₃.transactions_by_height = [] := by
      rcases hstop₃ with h3 | ⟨e, q', heq, hrec⟩
      · exact h3
      · exfalso
        have hin : e ∈ l₁.transactions_by_height := by
          refine List.mem_of_mem_drop (l := l₁.transactions_by_height)
            (n := i₃) ?_
          rw [← hq₃, heq]
          exact List.mem_cons_self _ _
        have := hall e hin
        rw [hwin₁] at this
        omega
    have hbh : lp₃.transactions_by_hash = [] := by
      have h0 := hperm₃
      rw [hempty] at h0
      simp only [List.map_nil] at h0
      exact List.map_eq_nil_iff.mp h0.eq_nil
    obtain ⟨b₁, hb₁⟩ := Option.isSome_iff_exists.mp hbs
    refine addPayment_succeeds l₁ memo payment c now₃ lp₃ hp₃ ?_ ?_ ?_ b₁ ?_
      ?_ ?_
    · rw [hwinp₃, hwin₁]
      omega
    · omega
    · rw [hbh]
      rfl
    · rw [hbal₃]
      exact hb₁
    · rw [hbc₃, hts₁]
      omega
    · exact addPayment_inv hb₁ hwf₁.bal

/-- Witness for C4 at a concrete scenario: mint at `now₁ = 0`, identical
resubmission at `now₂ = 1` rejected as duplicate; the window clause is
instantiated by the theorem's second conjunct. -/
theorem dedup_window_witness :
    (∃ l₂, (Ledger.mk ⟨[(1, tok 5)], tok (maxE8s - 5)⟩
        ⟨[Block.encode ⟨none, ⟨.Mint 1 (tok 5), 0, 0⟩, 0⟩],
          some (EncodedBlock.hashNat
            (Block.encode ⟨none, ⟨.Mint 1 (tok 5), 0, 0⟩, 0⟩)), 0, 0⟩
        50000000 100000 none [] (86400 * 1000000000)
        [(Transaction.hashNat ⟨.Mint 1 (tok 5), 0, 0⟩, 0)]
        [⟨0, Transaction.hashNat ⟨.Mint 1 (tok 5), 0, 0⟩⟩]
        []).add_payment_with_timestamp 0 (.Mint 1 (tok 5)) (some 0) 1 =
      some (.error .duplicateTx, l₂)) ∧
    (∀ now₃, 0 + Ledger.init.transaction_window ≤ now₃ →
      now₃ ≤ 0 + Ledger.init.transaction_window →
      0 ≤ now₃ + PERMITTED_DRIFT →
      ((Ledger.mk ⟨[(1, tok 5)], tok (maxE8s - 5)⟩
        ⟨[Block.encode ⟨none, ⟨.Mint 1 (tok 5), 0, 0⟩, 0⟩],
          some (EncodedBlock.hashNat
            (Block.encode ⟨none, ⟨.Mint 1 (tok 5), 0, 0⟩, 0⟩)), 0, 0⟩
        50000000 100000 none [] (86400 * 1000000000)
        [(Transaction.hashNat ⟨.Mint 1 (tok 5), 0, 0⟩, 0)]
        [⟨0, Transaction.hashNat ⟨.Mint 1 (tok 5), 0, 0⟩⟩]
        []).balances.add_payment (.Mint 1 (tok 5))).isSome →
      ∃ r₃ l₃, (Ledger.mk ⟨[(1, tok 5)], tok (maxE8s - 5)⟩
        ⟨[Block.encode ⟨none, ⟨.Mint 1 (tok 5), 0, 0⟩, 0⟩],
          some (EncodedBlock.hashNat
            (Block.encode ⟨none, ⟨.Mint 1 (tok 5), 0, 0⟩, 0⟩)), 0, 0⟩
        50000000 100000 none [] (86400 * 1000000000)
        [(Transaction.hashNat ⟨.Mint 1 (tok 5), 0, 0⟩, 0)]
        [⟨0, Transaction.hashNat ⟨.Mint 1 (tok 5), 0, 0⟩⟩]
        []).add_payment_with_timestamp 0 (.Mint 1 (tok 5)) (some 0) now₃ =
        some (.ok r₃, l₃)) :=
  dedup_window Ledger.init
    ⟨initBalances_inv, by decide, by decide,
      by intro i hi; exact absurd hi (List.not_mem_nil i)⟩
    0 (.Mint 1 (tok 5)) 0 0 1
    (0, EncodedBlock.hashNat (Block.encode ⟨none, ⟨.Mint 1 (tok 5), 0, 0⟩, 0⟩))
    (Ledger.mk ⟨[(1, tok 5)], tok (maxE8s - 5)⟩
        ⟨[Block.encode ⟨none, ⟨.Mint 1 (tok 5), 0, 0⟩, 0⟩],
          some (EncodedBlock.hashNat
            (Block.encode ⟨none, ⟨.Mint 1 (tok 5), 0, 0⟩, 0⟩)), 0, 0⟩
        50000000 100000 none [] (86400 * 1000000000)
        [(Transaction.hashNat ⟨.Mint 1 (tok 5), 0, 0⟩, 0)]
        [⟨0, Transaction.hashNat ⟨.Mint 1 (tok 5), 0, 0⟩⟩]
        [])
    (by decide) (by decide) (by decide) (by decide) (by decide)

/-! ## The tecdsa polynomial module (poly.rs)

`EccScalar` (the elliptic-curve scalar field, an external dependency) is
modelled as an arbitrary field `F` with decidable equality; all operands
share one curve, so the `CurveMismatch` error paths cannot fire and the
operations are total.  `EccScalar::invert` maps zero to zero, which is
Mathlib's `Inv` on a field.  A `Polynomial` is its little-endian
coefficient list. -/

section TecdsaPoly

set_option linter.unusedSectionVars false

variable {F : Type} [Field F] [DecidableEq F]

/-- `Polynomial::evaluate_at` (Horner's method; the empty polynomial
evaluates to zero). -/
def evaluate_at (c : List F) (x : F) : F :=
  c.foldr (fun co a => a * x + co) 0

/-- `Polynomial::coeff`: coefficient access defaulting to the field's
zero beyond the stored length. -/
def coeffAt (c : List F) (i : Nat) : F := c.getD i 0

/-- `Polynomial::add`: coefficient-wise addition up to the longer
length. -/
def polyAdd (a b : List F) : List F :=
  (List.range (max a.length b.length)).map fun i => coeffAt a i + coeffAt b i

/-- `Polynomial::mul`: convolution with `len a + len b - 1` output
coefficients. -/
def polyMul (a b : List F) : List F :=
  (List.range (a.length + b.length - 1)).map fun k =>
    ∑ ij ∈ Finset.antidiagonal k, coeffAt a ij.1 * coeffAt b ij.2

/-- `Polynomial::mul_scalar`. -/
def mulScalar (a : List F) (s : F) : List F := a.map (· * s)

/-- One iteration of the `interpolate` loop over a sample `(x, y)`:
compute the residual `y - poly(x)` and `inv = base(x)⁻¹`; if `inv` is
nonzero, scale `base` by `residual * inv`, add it into `poly` and extend
`base` by the root `x`; otherwise skip the sample. -/
def interpStep (st : List F × List F) (s : F × F) : List F × List F :=
  let diff := s.2 - evaluate_at st.1 s.1
  let inv := (evaluate_at st.2 s.1)⁻¹
  if inv ≠ 0 then
    let diff2 := diff * inv
    let base2 := mulScalar st.2 diff2
    (polyAdd st.1 base2, polyMul base2 [-s.1, 1])
  else st

/-- `Polynomial::interpolate`: on the empty sample list the zero
polynomial; otherwise start from the constant polynomial `[y₀]` and the
basis `[-x₀, 1]` and fold `interpStep` over the remaining samples. -/
def interpolate (samples : List (F × F)) : List F :=
  match samples with
  | [] => []
  | (x0, y0) :: rest => (rest.foldl interpStep ([y0], [-x0, 1])).1

/-- All residuals encountered during the `interpolate` loop are nonzero
(the degenerate case absorbed by C10 does not occur). -/
def goodRunB (st : List F × List F) : List (F × F) → Bool
  | [] => true
  | s :: rest =>
    decide (s.2 - evaluate_at st.1 s.1 ≠ 0) && goodRunB (interpStep st s) rest

/-- Nonzero residuals over the whole `interpolate` run. -/
def interpGood (samples : List (F × F)) : Bool :=
  match samples with
  | [] => true
  | (x0, y0) :: rest => goodRunB ([y0], [-x0, 1]) rest

/-- Bridge into Mathlib polynomials: the polynomial with the given
little-endian coefficient list. -/
noncomputable def toPoly (c : List F) : Polynomial F :=
  c.foldr (fun co p => Polynomial.C co + Polynomial.X * p) 0

lemma toPoly_nil : toPoly ([] : List F) = 0 := rfl

lemma toPoly_cons (c0 : F) (cs : List F) :
    toPoly (c0 :: cs) = Polynomial.C c0 + Polynomial.X * toPoly cs := rfl

lemma eval_toPoly (c : List F) (x : F) :
    (toPoly c).eval x = evaluate_at c x := by
  induction c with
  | nil => simp [toPoly, evaluate_at]
  | cons c0 cs ih =>
    simp only [toPoly_cons, Polynomial.eval_add, Polynomial.eval_C,
      Polynomial.eval_mul, Polynomial.eval_X, ih, evaluate_at,
      List.foldr_cons]
    ring

lemma coeff_toPoly (c : List F) : ∀ i : Nat, (toPoly c).coeff i = coeffAt c i := by
  induction c with
  | nil => intro i; simp [toPoly, coeffAt]
  | cons c0 cs ih =>
    intro i
    cases i with
    | zero =>
      simp [toPoly_cons, coeffAt, Polynomial.coeff_add,
        Polynomial.mul_coeff_zero]
    | succ n =>
      simp only [toPoly_cons, Polynomial.coeff_add, Polynomial.coeff_C,
        Polynomial.coeff_X_mul, ih n]
      simp [coeffAt]

lemma coeffAt_ge (c : List F) (i : Nat) (h : c.length ≤ i) :
    coeffAt c i = 0 := by
  unfold coeffAt
  rw [List.getD_eq_default]
  exact h

lemma coeffAt_rangeMap (f : Nat → F) (n i : Nat) :
    coeffAt ((List.range n).map f) i = if i < n then f i else 0 := by
  unfold coeffAt
  split
  · rename_i hlt
    rw [List.getD_eq_getElem _ _ (by simpa using hlt)]
    simp
  · rw [List.getD_eq_default]
    simpa using by omega

lemma toPoly_polyAdd (a b : List F) :
    toPoly (polyAdd a b) = toPoly a + toPoly b := by
  ext i
  rw [Polynomial.coeff_add, coeff_toPoly, coeff_toPoly, coeff_toPoly]
  unfold polyAdd
  rw [coeffAt_rangeMap]
  split
  · rfl
  · rename_i hge
    rw [coeffAt_ge a i (by omega), coeffAt_ge b i (by omega)]
    simp

lemma toPoly_polyMul (a b : List F) :
    toPoly (polyMul a b) = toPoly a * toPoly b := by
  ext k
  rw [Polynomial.coeff_mul, coeff_toPoly]
  unfold polyMul
  rw [coeffAt_rangeMap]
  split
  · refine Finset.sum_congr rfl fun ij _ => ?_
    rw [coeff_toPoly, coeff_toPoly]
  · rename_i hge
    symm
    refine Finset.sum_eq_zero fun ij hij => ?_
    rw [Finset.mem_antidiagonal] at hij
    rcases le_or_lt a.length ij.1 with h1 | h1
    · rw [coeff_toPoly, coeff_toPoly, coeffAt_ge a _ h1, zero_mul]
    · rcases le_or_lt b.length ij.2 with h2 | h2
      · rw [coeff_toPoly, coeff_toPoly, coeffAt_ge b _ h2, mul_zero]
      · omega

lemma toPoly_mulScalar (a : List F) (s : F) :
    toPoly (mulScalar a s) = toPoly a * Polynomial.C s := by
  ext i
  rw [Polynomial.coeff_mul_C, coeff_toPoly, coeff_toPoly]
  unfold mulScalar coeffAt
  rcases lt_or_le i a.length with h | h
  · rw [List.getD_eq_getElem _ _ (by simpa using h),
      List.getD_eq_getElem _ _ h]
    simp
  · rw [List.getD_eq_default _ _ (by simpa using h),
      List.getD_eq_default _ _ h, zero_mul]

lemma degree_toPoly_lt (c : List F) :
    (toPoly c).degree < (c.length : Nat) := by
  rw [Polynomial.degree_lt_iff_coeff_zero]
  intro m hm
  rw [coeff_toPoly]
  exact coeffAt_ge c m (by exact_mod_cast hm)

lemma toPoly_linear (x : F) :
    toPoly [-x, 1] = Polynomial.X - Polynomial.C x := by
  simp only [toPoly_cons, toPoly_nil]
  rw [map_neg, map_one, mul_zero, add_zero, mul_one]
  ring

lemma toPoly_single (a : F) : toPoly [a] = Polynomial.C a := by
  simp [toPoly_cons, toPoly_nil]

lemma interpStep_skip (st : List F × List F) (x y : F)
    (h : evaluate_at st.2 x = 0) : interpStep st (x, y) = st := by
  unfold interpStep
  rw [h, inv_zero]
  simp

lemma evaluate_at_zero_list (c : List F) (hc : ∀ co ∈ c, co = 0) (x : F) :
    evaluate_at c x = 0 := by
  induction c with
  | nil => rfl
  | cons c0 cs ih =>
    unfold evaluate_at
    rw [List.foldr_cons]
    have h0 : c0 = 0 := hc c0 (List.mem_cons_self _ _)
    have hr : cs.foldr (fun co a => a * x + co) 0 = 0 :=
      ih fun co hco => hc co (List.mem_cons_of_mem _ hco)
    unfold evaluate_at at hr
    rw [hr, h0, zero_mul, zero_add]

lemma foldl_zero_base : ∀ (post : List (F × F)) (poly base : List F),
    (∀ co ∈ base, co = 0) →
    post.foldl interpStep (poly, base) = (poly, base) := by
  intro post
  induction post with
  | nil => intro poly base _; rfl
  | cons s rest ih =>
    intro poly base hb
    rw [List.foldl_cons, interpStep_skip _ _ _ (evaluate_at_zero_list base hb _)]
    exact ih poly base hb

/-- **C7** (duplicate-abscissa skipping).  If, when `interpolate` reaches
the sample `(x, y)`, the current basis polynomial evaluates to the
field's zero at `x` (in particular when `x` duplicates an earlier
abscissa), the sample is silently skipped — the run is identical to the
run without that sample, leaving the partial interpolant and the basis
polynomial unchanged at that iteration, and no error is produced (the
model is total: `invert` maps zero to zero and the scaling branch is not
taken). -/
theorem interpolate_skips_zero_base (s0 : F × F) (pre post : List (F × F))
    (x y : F)
    (h : evaluate_at ((pre.foldl interpStep ([s0.2], [-s0.1, 1])).2) x = 0) :
    interpolate (s0 :: (pre ++ (x, y) :: post)) =
      interpolate (s0 :: (pre ++ post)) := by
  obtain ⟨x0, y0⟩ := s0
  simp only [interpolate]
  rw [List.foldl_append, List.foldl_append, List.foldl_cons]
  rw [show (pre.foldl interpStep ([y0], [-x0, 1])) =
    ((pre.foldl interpStep ([y0], [-x0, 1])).1,
     (pre.foldl interpStep ([y0], [-x0, 1])).2) from rfl]
  rw [interpStep_skip _ _ _ h]

instance : Fact (Nat.Prime 5) := ⟨by norm_num⟩

/-- Witness for C7: the second sample duplicates the abscissa of the
first (over `ZMod 5`), and is skipped. -/
theorem interpolate_skips_zero_base_witness :
    interpolate (((1 : ZMod 5), (1 : ZMod 5)) :: ([] ++ (1, 3) :: [])) =
      interpolate (((1 : ZMod 5), (1 : ZMod 5)) :: ([] ++ [])) :=
  interpolate_skips_zero_base ((1 : ZMod 5), (1 : ZMod 5)) [] [] 1 3
    (by decide)

/-- **C10** (zero-residual absorption).  If at some sample `(x, y)` the
basis polynomial is nonzero at `x` but the residual `y - poly(x)` is
zero, the scaling step multiplies the basis polynomial by zero: the basis
becomes the all-zero polynomial, every later sample is skipped, and
`interpolate` returns the partial interpolant built from the samples up
to and including `(x, y)` only. -/
theorem interpolate_zero_residual (s0 : F × F) (pre post : List (F × F))
    (x y : F)
    (hbase : evaluate_at ((pre.foldl interpStep ([s0.2], [-s0.1, 1])).2) x ≠ 0)
    (hres : y - evaluate_at ((pre.foldl interpStep ([s0.2], [-s0.1, 1])).1) x
      = 0) :
    (∀ co ∈ (interpStep (pre.foldl interpStep ([s0.2], [-s0.1, 1]))
      (x, y)).2, co = 0) ∧
    interpolate (s0 :: (pre ++ (x, y) :: post)) =
      (interpStep (pre.foldl interpStep ([s0.2], [-s0.1, 1])) (x, y)).1 := by
  obtain ⟨x0, y0⟩ := s0
  set st := pre.foldl interpStep ([y0], [-x0, 1]) with hst
  have hinv : (evaluate_at st.2 x)⁻¹ ≠ 0 := inv_ne_zero hbase
  have hstep : interpStep st (x, y) =
      (polyAdd st.1 (mulScalar st.2 ((y - evaluate_at st.1 x) *
        (evaluate_at st.2 x)⁻¹)),
       polyMul (mulScalar st.2 ((y - evaluate_at st.1 x) *
        (evaluate_at st.2 x)⁻¹)) [-x, 1]) := by
    unfold interpStep
    rw [if_pos hinv]
  have hdiff2 : (y - evaluate_at st.1 x) * (evaluate_at st.2 x)⁻¹ = 0 := by
    rw [hres, zero_mul]
  have hbase2 : ∀ co ∈ mulScalar st.2 ((y - evaluate_at st.1 x) *
      (evaluate_at st.2 x)⁻¹), co = 0 := by
    intro co hco
    unfold mulScalar at hco
    obtain ⟨a, -, ha⟩ := List.mem_map.mp hco
    rw [← ha, hdiff2, mul_zero]
  have hbase3 : ∀ co ∈ (interpStep st (x, y)).2, co = 0 := by
    rw [hstep]
    intro co hco
    unfold polyMul at hco
    obtain ⟨k, -, hk⟩ := List.mem_map.mp hco
    rw [← hk]
    refine Finset.sum_eq_zero fun ij _ => ?_
    have hz : coeffAt (mulScalar st.2 ((y - evaluate_at st.1 x) *
        (evaluate_at st.2 x)⁻¹)) ij.1 = 0 := by
      unfold coeffAt
      rcases lt_or_le ij.1 (mulScalar st.2 ((y - evaluate_at st.1 x) *
          (evaluate_at st.2 x)⁻¹)).length with hlt | hge
      · rw [List.getD_eq_getElem _ _ (by simpa using hlt)]
        exact hbase2 _ (List.getElem_mem _)
      · rw [List.getD_eq_default _ _ (by simpa using hge)]
    rw [hz, zero_mul]
  refine ⟨hbase3, ?_⟩
  simp only [interpolate]
  rw [List.foldl_append, List.foldl_cons, ← hst]
  rw [show st = (st.1, st.2) from rfl]
  have h2 := foldl_zero_base post (interpStep (st.1, st.2) (x, y)).1
    (interpStep (st.1, st.2) (x, y)).2 (by
      have := hbase3
      simpa using this)
  rw [show interpStep (st.1, st.2) (x, y) =
    ((interpStep (st.1, st.2) (x, y)).1, (interpStep (st.1, st.2) (x, y)).2)
    from rfl] at h2 ⊢
  rw [h2]

/-- Witness for C10 over `ZMod 5`: after samples `(1,1)` and `(4,1)` the
residual vanishes (`poly = [1]` already matches `y = 1` at `x = 4`), the
basis collapses to zero, and the sample `(2,4)` is ignored. -/
theorem interpolate_zero_residual_witness :
    (∀ co ∈ (interpStep (List.foldl interpStep
      (([(1 : ZMod 5)]), [-(1 : ZMod 5), 1]) []) ((4 : ZMod 5), 1)).2,
      co = 0) ∧
    interpolate ((((1 : ZMod 5), (1 : ZMod 5))) :: ([] ++ (4, 1) :: [(2, 4)])) =
      (interpStep (List.foldl interpStep (([(1 : ZMod 5)]), [-(1 : ZMod 5), 1])
        []) ((4 : ZMod 5), 1)).1 :=
  interpolate_zero_residual ((1 : ZMod 5), 1) [] [(2, 4)] 4 1 (by decide)
    (by decide)

lemma degree_linear_prod : ∀ pts : List F,
    ((pts.map fun t => Polynomial.X - Polynomial.C t).prod).degree =
      ((pts.length : Nat) : WithBot Nat) := by
  intro pts
  induction pts with
  | nil => simp
  | cons t rest ih =>
    rw [List.map_cons, List.prod_cons, Polynomial.degree_mul,
      Polynomial.degree_X_sub_C, ih, List.length_cons]
    rw [show ((rest.length + 1 : Nat) : WithBot Nat) =
      ((1 : Nat) : WithBot Nat) + ((rest.length : Nat) : WithBot Nat) by
        rw [← Nat.cast_add]
        congr 1
        omega]
    rfl

lemma eval_linear_prod_ne_zero {x : F} {pts : List F} (h : x ∉ pts) :
    ((pts.map fun t => Polynomial.X - Polynomial.C t).prod).eval x ≠ 0 := by
  rw [Polynomial.eval_list_prod]
  refine List.prod_ne_zero ?_
  intro h0
  rw [List.map_map, List.mem_map] at h0
  obtain ⟨t, ht, he⟩ := h0
  simp only [Function.comp_apply, Polynomial.eval_sub, Polynomial.eval_X,
    Polynomial.eval_C] at he
  exact h ((sub_eq_zero.mp he).symm ▸ ht)

lemma eval_linear_prod_zero {t : F} {pts : List F} (h : t ∈ pts) :
    ((pts.map fun s => Polynomial.X - Polynomial.C s).prod).eval t = 0 := by
  rw [Polynomial.eval_list_prod]
  refine List.prod_eq_zero ?_
  rw [List.map_map, List.mem_map]
  exact ⟨t, h, by simp⟩

/-- Invariant of the `interpolate` loop with all-nonzero residuals: after
processing the points `done` (with basis `C cc * ∏ (X - t)`), folding the
remaining distinct points extends the interpolant to all points while its
degree stays below the number of points processed. -/
lemma interp_fold (f : F → F) :
    ∀ (todo done : List F) (poly base : List F) (cc : F),
      (done ++ todo).Nodup → cc ≠ 0 →
      toPoly base = Polynomial.C cc *
        (done.map fun t => Polynomial.X - Polynomial.C t).prod →
      (∀ t ∈ done, (toPoly poly).eval t = f t) →
      (toPoly poly).degree < ((done.length : Nat) : WithBot Nat) →
      goodRunB (poly, base) (todo.map fun t => (t, f t)) = true →
      (∀ t ∈ done ++ todo,
        (toPoly ((todo.map fun t => (t, f t)).foldl interpStep
          (poly, base)).1).eval t = f t) ∧
      (toPoly ((todo.map fun t => (t, f t)).foldl interpStep
        (poly, base)).1).degree <
          (((done ++ todo).length : Nat) : WithBot Nat) := by
  intro todo
  induction todo with
  | nil =>
    intro done poly base cc hnd hcc hbase hpoly hdeg hgood
    simp only [List.map_nil, List.foldl_nil, List.append_nil]
    exact ⟨hpoly, hdeg⟩
  | cons x rest ih =>
    intro done poly base cc hnd hcc hbase hpoly hdeg hgood
    simp only [List.map_cons, List.foldl_cons]
    simp only [List.map_cons, goodRunB, Bool.and_eq_true,
      decide_eq_true_eq] at hgood
    obtain ⟨hdiff, hgood2⟩ := hgood
    have hxdone : x ∉ done := by
      rw [List.nodup_append] at hnd
      intro hx
      exact hnd.2.2 hx (List.mem_cons_self x rest)
    have hbx : evaluate_at base x ≠ 0 := by
      rw [← eval_toPoly, hbase, Polynomial.eval_mul, Polynomial.eval_C]
      exact mul_ne_zero hcc (eval_linear_prod_ne_zero hxdone)
    have hinv : (evaluate_at base x)⁻¹ ≠ 0 := inv_ne_zero hbx
    have hstep : interpStep (poly, base) (x, f x) =
        (polyAdd poly (mulScalar base (((x, f x).2 -
          evaluate_at poly (x, f x).1) * (evaluate_at base (x, f x).1)⁻¹)),
         polyMul (mulScalar base (((x, f x).2 -
          evaluate_at poly (x, f x).1) * (evaluate_at base (x, f x).1)⁻¹))
          [-(x, f x).1, 1]) := by
      unfold interpStep
      rw [if_pos hinv]
    simp only at hstep hdiff
    set d2 : F := (f x - evaluate_at poly x) * (evaluate_at base x)⁻¹
      with hd2
    have hd2ne : d2 ≠ 0 := mul_ne_zero hdiff hinv
    have hcc2 : cc * d2 ≠ 0 := mul_ne_zero hcc hd2ne
    have hb2 : toPoly (mulScalar base d2) = Polynomial.C (cc * d2) *
        (done.map fun t => Polynomial.X - Polynomial.C t).prod := by
      have hsplit : (Polynomial.C (cc * d2) : Polynomial F) =
          Polynomial.C cc * Polynomial.C d2 := map_mul _ _ _
      rw [toPoly_mulScalar, hbase, hsplit]
      ring
    have hevalb2 : (toPoly (mulScalar base d2)).eval x =
        f x - evaluate_at poly x := by
      rw [toPoly_mulScalar, Polynomial.eval_mul, Polynomial.eval_C,
        eval_toPoly, hd2]
      rw [mul_comm (f x - evaluate_at poly x) (evaluate_at base x)⁻¹,
        ← mul_assoc, mul_inv_cancel₀ hbx, one_mul]
    have hp2 := toPoly_polyAdd poly (mulScalar base d2)
    have hevalp2done : ∀ t ∈ done,
        (toPoly (polyAdd poly (mulScalar base d2))).eval t = f t := by
      intro t ht
      rw [hp2, Polynomial.eval_add, hpoly t ht, hb2, Polynomial.eval_mul,
        eval_linear_prod_zero ht, mul_zero, add_zero]
    have hevalp2x : (toPoly (polyAdd poly (mulScalar base d2))).eval x =
        f x := by
      rw [hp2, Polynomial.eval_add, hevalb2, eval_toPoly]
      ring
    have hdegb2 : (toPoly (mulScalar base d2)).degree =
        ((done.length : Nat) : WithBot Nat) := by
      rw [hb2, Polynomial.degree_C_mul hcc2, degree_linear_prod]
    have hdegp2 : (toPoly (polyAdd poly (mulScalar base d2))).degree <
        (((done.length + 1 : Nat)) : WithBot Nat) := by
      rw [hp2]
      refine lt_of_le_of_lt (Polynomial.degree_add_le _ _) ?_
      rw [max_lt_iff]
      constructor
      · refine lt_of_lt_of_le hdeg ?_
        exact_mod_cast Nat.le_succ done.length
      · rw [hdegb2]
        exact_mod_cast Nat.lt_succ_self done.length
    have hb3 : toPoly (polyMul (mulScalar base d2) [-x, 1]) =
        Polynomial.C (cc * d2) *
          ((done ++ [x]).map fun t => Polynomial.X - Polynomial.C t).prod := by
      rw [toPoly_polyMul, hb2, toPoly_linear, List.map_append,
        List.prod_append, List.map_singleton, List.prod_singleton]
      ring
    have hnd' : ((done ++ [x]) ++ rest).Nodup := by
      rw [List.append_assoc, List.singleton_append]
      exact hnd
    have hgood' : goodRunB (polyAdd poly (mulScalar base d2),
        polyMul (mulScalar base d2) [-x, 1])
        (rest.map fun t => (t, f t)) = true := by
      rw [hstep] at hgood2
      exact hgood2
    have hIH := ih (done ++ [x]) (polyAdd poly (mulScalar base d2))
      (polyMul (mulScalar base d2) [-x, 1]) (cc * d2) hnd' hcc2 hb3
      (by
        intro t ht
        rcases List.mem_append.mp ht with h1 | h1
        · exact hevalp2done t h1
        · rw [List.mem_singleton] at h1
          subst h1
          exact hevalp2x)
      (by
        rw [List.length_append, List.length_singleton]
        exact hdegp2)
      hgood'
    rw [hstep]
    constructor
    · intro t ht
      refine hIH.1 t ?_
      rw [List.append_assoc, List.singleton_append]
      exact ht
    · have h2 := hIH.2
      rw [List.append_assoc, List.singleton_append] at h2
      exact h2

lemma interpStep_scale (st : List F × List F) (x y : F)
    (h : evaluate_at st.2 x ≠ 0) :
    interpStep st (x, y) =
      (polyAdd st.1 (mulScalar st.2 ((y - evaluate_at st.1 x) *
        (evaluate_at st.2 x)⁻¹)),
       polyMul (mulScalar st.2 ((y - evaluate_at st.1 x) *
        (evaluate_at st.2 x)⁻¹)) [-x, 1]) := by
  unfold interpStep
  rw [if_pos (inv_ne_zero h)]

/-- Counterexample to C6 as stated: over `ZMod 5`, for `p = x²`
(coefficients `[0, 0, 1]`) and the pairwise-distinct abscissas
`[1, 4, 2]` (so `deg p + 1 = 3` samples `(x, p(x))`), `interpolate`
does NOT reconstruct `p`: at the second sample `(4, 1)` the residual
`p(4) - poly(4) = 1 - 1` is zero, the basis collapses to the zero
polynomial (see C10), the third sample is skipped, and the returned
interpolant disagrees with `p` at `x = 2`. -/
theorem interpolate_reconstructs_counterexample :
    ([(1 : ZMod 5), 4, 2].Nodup) ∧
    ([(1 : ZMod 5), 4, 2].length =
      (toPoly [(0 : ZMod 5), 0, 1]).natDegree + 1) ∧
    evaluate_at (interpolate ([(1 : ZMod 5), 4, 2].map
        fun t => (t, evaluate_at [(0 : ZMod 5), 0, 1] t))) 2 ≠
      evaluate_at [(0 : ZMod 5), 0, 1] 2 := by
  refine ⟨by decide, ?_, ?_⟩
  · have h : toPoly [(0 : ZMod 5), 0, 1] = Polynomial.X ^ 2 := by
      rw [toPoly_cons, toPoly_cons, toPoly_cons, toPoly_nil]
      simp
      ring
    rw [h, Polynomial.natDegree_X_pow]
    decide
  · have hmap : [(1 : ZMod 5), 4, 2].map
        (fun t => (t, evaluate_at [(0 : ZMod 5), 0, 1] t)) =
        [((1 : ZMod 5), (1 : ZMod 5)), (4, 1), (2, 4)] := by decide
    have h1 : interpStep ([(1 : ZMod 5)], [-1, 1]) ((4 : ZMod 5), 1) =
        ([1, 0], [0, 0, 0]) := by
      rw [interpStep_scale ([(1 : ZMod 5)], [-1, 1]) 4 1 (by decide)]
      show (polyAdd [(1 : ZMod 5)] (mulScalar [-1, 1]
          (((1 : ZMod 5) - evaluate_at [(1 : ZMod 5)] 4) *
            (evaluate_at ([-1, 1] : List (ZMod 5)) 4)⁻¹)),
        polyMul (mulScalar ([-1, 1] : List (ZMod 5))
          (((1 : ZMod 5) - evaluate_at [(1 : ZMod 5)] 4) *
            (evaluate_at ([-1, 1] : List (ZMod 5)) 4)⁻¹)) [-4, 1]) =
        ([1, 0], [0, 0, 0])
      rw [show (1 : ZMod 5) - evaluate_at [(1 : ZMod 5)] 4 = 0 from by decide,
        zero_mul,
        show mulScalar ([-1, 1] : List (ZMod 5)) 0 = [0, 0] from by decide]
      decide
    have h2 : interpolate [((1 : ZMod 5), (1 : ZMod 5)), (4, 1), (2, 4)] =
        [1, 0] := by
      show ([((4 : ZMod 5), (1 : ZMod 5)), (2, 4)].foldl interpStep
        ([1], [-1, 1])).1 = [1, 0]
      rw [List.foldl_cons, h1, List.foldl_cons,
        interpStep_skip ([1, 0], [0, 0, 0]) 2 4 (by decide), List.foldl_nil]
    rw [hmap, h2]
    decide

/-- **C6** (interpolation correctness, amended).  For every polynomial
`p` over the scalar field and every list of `deg p + 1` pairwise-distinct
abscissas, provided additionally that every residual encountered during
the run is nonzero (`interpGood`; without this the basis polynomial can
collapse to zero and later samples are dropped, see the counterexample
and C10), `interpolate` on the samples `(x, p(x))` returns a polynomial
that agrees with `p` at every field element, including points not among
the samples. -/
theorem interpolate_reconstructs (p xs : List F)
    (hnd : xs.Nodup)
    (hlen : xs.length = (toPoly p).natDegree + 1)
    (hgood : interpGood (xs.map fun t => (t, evaluate_at p t)) = true) :
    ∀ x : F,
      evaluate_at (interpolate (xs.map fun t => (t, evaluate_at p t))) x =
        evaluate_at p x := by
  intro x
  cases xs with
  | nil => simp at hlen
  | cons x0 rest =>
    have hgood' : goodRunB ([evaluate_at p x0], [-x0, 1])
        (rest.map fun t => (t, evaluate_at p t)) = true := hgood
    have hbase1 : toPoly ([-x0, 1] : List F) = Polynomial.C (1 : F) *
        (([x0] : List F).map fun t => Polynomial.X - Polynomial.C t).prod := by
      rw [toPoly_linear]
      simp
    have hfold := interp_fold (fun t => evaluate_at p t) rest [x0]
      [evaluate_at p x0] [-x0, 1] 1 hnd one_ne_zero hbase1
      (by
        intro t ht
        rw [List.mem_singleton] at ht
        subst ht
        rw [toPoly_single, Polynomial.eval_C])
      (by
        rw [toPoly_single, List.length_singleton]
        exact lt_of_le_of_lt Polynomial.degree_C_le
          (by exact_mod_cast Nat.zero_lt_one))
      hgood'
    have hq1 := hfold.1
    have hq2 := hfold.2
    have hcard : (x0 :: rest).toFinset.card = (x0 :: rest).length :=
      List.toFinset_card_of_nodup hnd
    have heq : toPoly ((rest.map fun t => (t, evaluate_at p t)).foldl
        interpStep ([evaluate_at p x0], [-x0, 1])).1 = toPoly p := by
      refine Polynomial.eq_of_degrees_lt_of_eval_finset_eq
        ((x0 :: rest).toFinset) ?_ ?_ ?_
      · rw [hcard]
        exact hq2
      · rw [hcard, hlen]
        exact lt_of_le_of_lt Polynomial.degree_le_natDegree
          (by exact_mod_cast Nat.lt_succ_self _)
      · intro t ht
        rw [List.mem_toFinset] at ht
        exact (hq1 t ht).trans (eval_toPoly p t).symm
    show evaluate_at ((rest.map fun t => (t, evaluate_at p t)).foldl
      interpStep ([evaluate_at p x0], [-x0, 1])).1 x = evaluate_at p x
    rw [← eval_toPoly, heq, eval_toPoly]

/-- Witness for C6 over `ZMod 5`: `p = 2x + 3` interpolated from the
good run on abscissas `[0, 1]` is recovered at the off-sample point
`x = 4`. -/
theorem interpolate_reconstructs_witness :
    evaluate_at (interpolate ([(0 : ZMod 5), 1].map
        fun t => (t, evaluate_at [(3 : ZMod 5), 2] t))) 4 =
      evaluate_at [(3 : ZMod 5), 2] 4 :=
  interpolate_reconstructs [(3 : ZMod 5), 2] [0, 1] (by decide)
    (by
      have h : toPoly [(3 : ZMod 5), 2] =
          Polynomial.C 2 * Polynomial.X + Polynomial.C 3 := by
        rw [toPoly_cons, toPoly_cons, toPoly_nil]
        ring
      rw [h, Polynomial.natDegree_linear (show (2 : ZMod 5) ≠ 0 by decide)]
      decide)
    (by decide) 4

end TecdsaPoly
